import Mathlib

/-!
A verification development for the FTLMVChatBot event-search core
(`ftl_search/registry.py`, `ftl_search/summarize.py`, `ftl_search/effects.py`,
`ftl_search/text_utils.py`, `ftl_search/cli.py`).

The Python code operates on `xml.etree.ElementTree` element trees.  We model
an element as an inductive tree (`XElem`).  Python strings are modeled by Lean
`String`; the Python-specific primitives used by the code (`str.strip`,
`str.lower`, substring tests, slicing) are reimplemented here over the
character list so that their algebraic properties can be proved directly.
Modeling notes, applied consistently:
  * text inside elements is modeled after XML entity resolution, so
    `html.unescape` (which the code applies to already-parsed text) is the
    identity in this model;
  * Python `str.strip`/`str.split()` treat the ASCII whitespace characters
    (space, tab, newline, carriage return, vertical tab, form feed) as
    whitespace, which is what `pyIsSpace` captures;
  * `str.lower` is modeled on ASCII letters (the event names the code compares
    case-insensitively are ASCII identifiers);
  * floating point arithmetic (`cnt * 100.0 / total` and the threshold
    test against the literal `0.05`) is modeled exactly: `fl` rounds a
    rational to the IEEE-754 binary64 grid (53-bit significand, round to
    nearest, ties to even) and every float operation and int-to-float
    conversion of the Python expression is wrapped in `fl`; `fl` models the
    normal range (no overflow or subnormal clamping), which is faithful for
    the magnitudes these expressions reach.  Python's `round` on a float and
    `%.0f`/`%.1f` formatting round the float's exact value half-to-even
    (`round_half_even_of`).
-/

/-- Python whitespace test for `str.strip` / `str.split()` (ASCII whitespace). -/
def pyIsSpace (c : Char) : Bool :=
  c = ' ' || c = '\t' || c = '\n' || c = '\r' || c = '\x0b' || c = '\x0c'

/-- Python `str.strip()`: drop whitespace from both ends. -/
def pyStrip (s : String) : String :=
  ⟨((s.data.dropWhile pyIsSpace).reverse.dropWhile pyIsSpace).reverse⟩

/-- Lower-case one character (ASCII range), modeling Python `str.lower`. -/
def pyLowerChar (c : Char) : Char :=
  if 'A' ≤ c ∧ c ≤ 'Z' then Char.ofNat (c.toNat + 32) else c

/-- Python `str.lower()` on the ASCII letters. -/
def pyLower (s : String) : String :=
  ⟨s.data.map pyLowerChar⟩

/-- `"".join(q.split())` / `re.sub(r"\s+", "", s)`: remove all whitespace. -/
def pyNoWs (s : String) : String :=
  ⟨s.data.filter (fun c => !pyIsSpace c)⟩

/-- Helper for the Python substring operator `needle in hay` on char lists. -/
def listHasInfix (h n : List Char) : Bool :=
  n.isPrefixOf h ||
    match h with
    | [] => false
    | _ :: t => listHasInfix t n

/-- Python substring containment `sub in hay`. -/
def strHasSub (hay sub : String) : Bool :=
  listHasInfix hay.data sub.data

/-- Python `hay.startswith(p)`. -/
def pyStartsWith (hay p : String) : Bool :=
  p.data.isPrefixOf hay.data

/-- Python string repetition `"  " * d` (the indentation unit of the code). -/
def indentStr (d : Nat) : String :=
  ⟨List.replicate (2 * d) ' '⟩

/-- Python character count `len(s)`. -/
def pyLen (s : String) : Nat := s.data.length

/-- Python slice `s[:n]`. -/
def pyTake (s : String) (n : Nat) : String := ⟨s.data.take n⟩

/-- Python slice `s[n:]`. -/
def pyDrop (s : String) (n : Nat) : String := ⟨s.data.drop n⟩

/-- Python slice `s[-n:]` for `n ≤ len s`. -/
def pyTakeRight (s : String) (n : Nat) : String := ⟨s.data.drop (s.data.length - n)⟩

/-- Python `sep.join(parts)`. -/
def pyJoin (sep : String) (parts : List String) : String :=
  String.intercalate sep parts

/-- `text_utils.clip_line`: clip a line to `maxLen` characters, ellipsis-ending. -/
def clip_line (s : String) (maxLen : Nat) : String :=
  if maxLen > 0 ∧ pyLen s > maxLen then pyTake s (maxLen - 1) ++ "…" else s

/-- `text_utils.abbrev_text` with the default head/tail budget of 10+10. -/
def abbrev_text (s : String) : String :=
  if pyLen s ≤ 20 then s else pyTake s 10 ++ "..." ++ pyTakeRight s 10

/-- One parsed XML element: tag, attributes (document order, unique keys),
own text (`el.text or ""`), tail text (`el.tail or ""`), children. -/
inductive XElem where
  | mk (tag : String) (attrs : List (String × String)) (text : String)
       (tail : String) (children : List XElem)

mutual
/-- Structural equality of elements (the model of `ET.tostring` equality:
two parsed elements serialize identically iff they agree on tag, attribute
list, text, tail and children). -/
def XElem.beq : XElem → XElem → Bool
  | .mk t1 a1 s1 l1 c1, .mk t2 a2 s2 l2 c2 =>
      t1 == t2 && a1 == a2 && s1 == s2 && l1 == l2 && XElem.beqL c1 c2

/-- Structural equality of child lists. -/
def XElem.beqL : List XElem → List XElem → Bool
  | [], [] => true
  | x :: xs, y :: ys => XElem.beq x y && XElem.beqL xs ys
  | _, _ => false
end

/-- Element tag. -/
def XElem.tag : XElem → String
  | .mk t _ _ _ _ => t

/-- Element attributes. -/
def XElem.attrs : XElem → List (String × String)
  | .mk _ a _ _ _ => a

/-- `el.text or ""`. -/
def XElem.text : XElem → String
  | .mk _ _ s _ _ => s

/-- `el.tail or ""`. -/
def XElem.tail : XElem → String
  | .mk _ _ _ s _ => s

/-- `list(el)`: the child elements. -/
def XElem.kids : XElem → List XElem
  | .mk _ _ _ _ cs => cs

/-- `el.attrib.get(k)`: first (unique) binding of an attribute key. -/
def XElem.attr (e : XElem) (k : String) : Option String :=
  (e.attrs.find? (fun p => p.1 == k)).map (·.2)

/-- `el.attrib.get(k) or ""`; Python truthiness of the result is `≠ ""`. -/
def XElem.attrD (e : XElem) (k : String) : String :=
  (e.attr k).getD ""

/-- Python truthiness of an optional string (`None` and `""` are falsy). -/
def optTruthy (o : Option String) : Bool :=
  match o with
  | none => false
  | some s => s ≠ ""

/-- `registry._strip_namespace`: drop a `{namespace}` prefix from a tag. -/
def strip_namespace (t : String) : String :=
  match t.data with
  | '{' :: rest =>
      -- `tag.split("}", 1)[1]`; parser-produced tags always contain `}`.
      ⟨(rest.dropWhile (fun c => c ≠ '}')).drop 1⟩
  | _ => t

/-- Local (namespace-stripped) tag of an element. -/
def XElem.ltag (e : XElem) : String := strip_namespace e.tag

mutual
/-- The text chunks produced by `el.itertext()`, in document order. -/
def XElem.itertextParts : XElem → List String
  | .mk _ _ s _ cs => s :: XElem.itertextPartsL cs

/-- `itertext` chunks of a child list (each child's chunks then its tail). -/
def XElem.itertextPartsL : List XElem → List String
  | [] => []
  | c :: cs => (XElem.itertextParts c ++ [c.tail]) ++ XElem.itertextPartsL cs
end

/-- `"".join(el.itertext())`. -/
def XElem.itertextJoined (e : XElem) : String :=
  String.join e.itertextParts

/-- `registry._gather_subtree_text`: strip each chunk, keep the nonempty ones,
join with single spaces (entity unescaping is the identity in this model). -/
def gather_subtree_text (e : XElem) : String :=
  pyJoin " " (((e.itertextParts.map pyStrip).filter (fun p => p ≠ "")))

mutual
/-- Number of elements in a subtree (termination measure for the expander). -/
def XElem.size : XElem → Nat
  | .mk _ _ _ _ cs => 1 + XElem.sizeL cs

/-- Total size of a list of subtrees. -/
def XElem.sizeL : List XElem → Nat
  | [] => 0
  | c :: cs => XElem.size c + XElem.sizeL cs
end

theorem XElem.size_pos (e : XElem) : 1 ≤ e.size := by
  cases e with
  | mk t a s tl cs => simp [XElem.size]

theorem XElem.size_mk (t : String) (a : List (String × String)) (s tl : String)
    (cs : List XElem) : XElem.size (.mk t a s tl cs) = 1 + XElem.sizeL cs := rfl

theorem XElem.sizeL_cons (c : XElem) (cs : List XElem) :
    XElem.sizeL (c :: cs) = c.size + XElem.sizeL cs := rfl

theorem XElem.size_le_sizeL_of_mem {c : XElem} {cs : List XElem} (h : c ∈ cs) :
    c.size ≤ XElem.sizeL cs := by
  induction cs with
  | nil => cases h
  | cons hd tl ih =>
      rcases List.mem_cons.mp h with h1 | h2
      · subst h1; simp [XElem.sizeL]
      · have := ih h2
        simp [XElem.sizeL]; omega

theorem XElem.sizeL_sublist {l₁ l₂ : List XElem} (h : l₁.Sublist l₂) :
    XElem.sizeL l₁ ≤ XElem.sizeL l₂ := by
  induction h with
  | slnil => simp
  | cons c _ ih => simp [XElem.sizeL]; omega
  | cons₂ c _ ih => simp [XElem.sizeL]; omega

theorem XElem.sizeL_filter (p : XElem → Bool) (l : List XElem) :
    XElem.sizeL (l.filter p) ≤ XElem.sizeL l :=
  XElem.sizeL_sublist (List.filter_sublist l)

theorem XElem.sizeL_kids_lt (e : XElem) : XElem.sizeL e.kids < e.size := by
  cases e with
  | mk t a s tl cs => simp [XElem.size, XElem.kids]

/-- An induction principle for `XElem` that provides the inductive hypothesis
for every direct child. -/
theorem XElem.inductionOn (P : XElem → Prop)
    (h : ∀ t a s tl cs, (∀ c ∈ cs, P c) → P (.mk t a s tl cs)) :
    ∀ e, P e := by
  intro e
  cases e with
  | mk t a s tl cs =>
      apply h
      intro c hc
      have : c.size ≤ XElem.sizeL cs := XElem.size_le_sizeL_of_mem hc
      exact XElem.inductionOn P h c
termination_by e => e.size
decreasing_by
  simp [XElem.size]
  have := XElem.size_pos c
  omega

theorem XElem.beqL_eq_of (cs : List XElem)
    (ih : ∀ c ∈ cs, ∀ b, XElem.beq c b = true ↔ c = b) :
    ∀ ds, XElem.beqL cs ds = true ↔ cs = ds := by
  induction cs with
  | nil => intro ds; cases ds <;> simp [XElem.beqL]
  | cons hd tl iht =>
      intro ds
      cases ds with
      | nil => simp [XElem.beqL]
      | cons hd' tl' =>
          have h1 := ih hd (by simp) hd'
          have h2 := iht (fun c hc b => ih c (by simp [hc]) b) tl'
          simp [XElem.beqL, h1, h2]

theorem XElem.beq_eq : ∀ a b : XElem, XElem.beq a b = true ↔ a = b := by
  intro a
  induction a using XElem.inductionOn with
  | h t ats s tl cs ih =>
      intro b
      cases b with
      | mk t' ats' s' tl' cs' =>
          have hl := XElem.beqL_eq_of cs ih cs'
          simp [XElem.beq, hl]
          tauto

instance : DecidableEq XElem := fun a b => decidable_of_iff _ (XElem.beq_eq a b)

example : pyStrip "  ab c \n" = "ab c" := by decide
example : pyLower "AbC_1" = "abc_1" := by decide
example : strHasSub "hello world" "lo wo" = true := by decide
example : strHasSub "hello" "xyz" = false := by decide
example : pyNoWs " a b\tc " = "abc" := by decide
example : abbrev_text "short" = "short" := by decide
example : abbrev_text "abcdefghijklmnopqrstuvwxyz" = "abcdefghij...qrstuvwxyz" := by decide
example : clip_line "abcdef" 4 = "abc…" := by decide
example : strip_namespace "{http://x}event" = "event" := by decide
example : strip_namespace "event" = "event" := by decide
example : indentStr 2 = "    " := by decide

/-! ## Effects digest (`ftl_search/effects.py`) -/

/-- Render an optional attribute the way a Python f-string renders `None`. -/
def pyShowOpt (o : Option String) : String :=
  match o with
  | none => "None"
  | some s => s

/-- `a or b or ... or default` over optional strings (Python truthiness). -/
def firstTruthyD (l : List (Option String)) (d : String) : String :=
  match l.find? optTruthy with
  | some o => o.getD ""
  | none => d

/-- Python's `\w` for the characters appearing in effect strings: ASCII
alphanumerics, underscore, and CJK ideographs (which are word characters for
Python's unicode regex engine). -/
def word_char (c : Char) : Bool :=
  c.isAlpha || c.isDigit || c = '_' || (0x4E00 ≤ c.toNat && c.toNat ≤ 0x9FFF)

/-- One pass of `re.sub(rf"\b{src}\b", dst, s, flags=IGNORECASE)`: scan left to
right, replace non-overlapping case-insensitive occurrences of `srcLow`
delimited by word boundaries. -/
def wbAux (srcLow : List Char) (dst : List Char) (skip : Nat) (prev : Option Char) :
    List Char → List Char
  | [] => []
  | c :: rest =>
      if skip > 0 then
        -- consuming the remainder of a span that was already replaced
        wbAux srcLow dst (skip - 1) (some c) rest
      else if (!srcLow.isEmpty) && srcLow.isPrefixOf ((c :: rest).map pyLowerChar) &&
          (match prev with | none => true | some p => !word_char p) &&
          (match (c :: rest).drop srcLow.length with
           | [] => true
           | nx :: _ => !word_char nx) then
        dst ++ wbAux srcLow dst (srcLow.length - 1) (some c) rest
      else
        c :: wbAux srcLow dst 0 (some c) rest

/-- Word-boundary substitution over strings. -/
def wb_sub (src dst s : String) : String :=
  ⟨wbAux (src.data.map pyLowerChar) dst.data 0 none s.data⟩

/-- `effects._TERM_TRANSLATIONS`, in dictionary (insertion) order. -/
def term_translations : List (String × String) :=
  [("autoreward", "自动奖励"), ("scrap", "~"), ("scrap_only", "~奖励"),
   ("fuel", "\x7b"), ("fuel_only", "\x7b奖励"), ("missile", "导弹"),
   ("missiles", "\x7d"), ("missle", "\x7d"), ("missile_only", "\x7d奖励"),
   ("missiles_only", "\x7d奖励"), ("missle_only", "\x7d奖励"),
   ("droneparts", "|"), ("drone_parts", "|"), ("drone-part", "|"),
   ("drone", "无人机"), ("droneparts_only", "|奖励"), ("crew", "船员"),
   ("boarders", "敌方登舰"), ("pursuit", "追击进度"), ("status", "状态"),
   ("upgrade", "系统升级"), ("system", "系统"), ("quest", "任务"),
   ("store", "商店"), ("unlock", "解锁"), ("weapon", "武器"),
   ("augment", "部件"), ("var", "变量"), ("damage", "损伤"),
   ("repair", "修复"), ("level", "等级"), ("standard", "标准奖励"),
   ("low", "低级"), ("med", "中级"), ("high", "高级")]

/-- `effects._localize_effect_text`: apply every term pattern in order. -/
def localize_effect_text (s : String) : String :=
  term_translations.foldl (fun acc p => wb_sub p.1 p.2 acc) s

/-- The `autoReward` level translation dictionary. -/
def level_cn (lvl : String) : String :=
  let l := pyLower lvl
  if l = "standard" then "标准"
  else if l = "low" then "低级"
  else if l = "med" then "中级"
  else if l = "medium" then "中级"
  else if l = "mid" then "中级"
  else if l = "high" then "高级"
  else lvl

/-- The effect strings contributed directly by one non-`choice` child node,
per the tag dispatch table of `effects.extract_effects`. -/
def eff_tag (ch : XElem) : List String :=
  let tag := ch.ltag
  if tag = "autoReward" then
    let val := pyStrip ch.text
    let lvl := pyStrip (ch.attrD "level")
    if lvl ≠ "" then
      let cn := level_cn lvl
      if val ≠ "" then [cn ++ "奖励（" ++ val ++ "）"] else [cn ++ "奖励"]
    else
      if val ≠ "" then ["奖励（" ++ val ++ "）"] else ["奖励"]
  else if tag = "item_modify" then
    (ch.kids.filter (fun it => it.ltag == "item")).map (fun it =>
      let typ := it.attr "type"
      let mn := it.attr "min"
      let mx := it.attr "max"
      let rng := if optTruthy mn ∧ optTruthy mx ∧ mn ≠ mx then
          mn.getD "" ++ "到" ++ mx.getD ""
        else firstTruthyD [mn, mx] "?"
      pyShowOpt typ ++ " " ++ rng)
  else if tag = "weapon" ∨ tag = "drone" ∨ tag = "augment" then
    ["+" ++ tag ++ ":" ++ pyShowOpt (ch.attr "name")]
  else if tag = "crewMember" then
    let amt := firstTruthyD [ch.attr "amount", ch.attr "count"] "1"
    let cls := firstTruthyD [ch.attr "class", ch.attr "type"] ""
    let extras := ["pilot", "combat", "repair", "shields", "engines",
                   "weapons", "all_skills"].filterMap (fun k =>
      let v := ch.attrD k
      if v ≠ "" then
        some (if k = "all_skills" then "all_skills=" ++ v else k ++ "+" ++ v)
      else none)
    let nameTxt := pyStrip ch.text
    let namePart := if nameTxt ≠ "" then " name=" ++ nameTxt else ""
    let extraPart := if extras ≠ [] then " (" ++ pyJoin ", " extras ++ ")" else ""
    ["+crew x" ++ amt ++ (if cls ≠ "" then " " ++ cls else "") ++ namePart ++ extraPart]
  else if tag = "status" then
    ["status(" ++ pyShowOpt (ch.attr "type") ++ ":" ++ pyShowOpt (ch.attr "target")
      ++ " " ++ pyShowOpt (ch.attr "amount") ++ ")"]
  else if tag = "upgrade" then
    let sysname := firstTruthyD [ch.attr "system"] "?"
    let amt := firstTruthyD [ch.attr "amount"] "?"
    let sign := if pyStartsWith amt "-" then "" else "+"
    ["upgrade " ++ sysname ++ " " ++ sign ++ amt]
  else if tag = "quest" then
    ["quest: " ++ firstTruthyD [ch.attr "event"] "?"]
  else if tag = "removeCrew" then
    let amt := firstTruthyD [ch.attr "amount"] "1"
    let cloneOk := ch.kids.any (fun gc =>
      gc.ltag == "clone" &&
        (pyLower (pyStrip gc.text) == "true" || pyLower (pyStrip gc.text) == "1"))
    [("crew -" ++ amt) ++ (if cloneOk then " (可由克隆舱复活)" else "")]
  else if tag = "variable" then
    let nm := ch.attr "name"
    let op := pyLower (ch.attrD "op")
    let val := firstTruthyD [ch.attr "val", ch.attr "amount"] "?"
    if optTruthy nm ∧ pyStartsWith (nm.getD "") "rep_" then
      let faction := pyDrop (nm.getD "") 4
      if op = "add" then
        let sign := if pyStartsWith val "-" then "" else "+"
        ["rep_" ++ faction ++ " " ++ sign ++ val]
      else if op = "sub" then ["rep_" ++ faction ++ " -" ++ val]
      else ["rep_" ++ faction ++ " " ++ op ++ " " ++ val]
    else
      if op = "add" then
        let sign := if pyStartsWith val "-" then "" else "+"
        ["var " ++ pyShowOpt nm ++ " " ++ sign ++ val]
      else ["var " ++ pyShowOpt nm ++ " " ++ op ++ " " ++ val]
  else if tag = "modifyPursuit" then
    match ch.attr "amount" with
    | none => ["pursuit ?"]
    | some a =>
        if a = "" then ["pursuit ?"]
        else ["pursuit " ++ (if pyStartsWith a "-" then "" else "+") ++ a]
  else if tag = "boarders" then
    let cls := firstTruthyD [ch.attr "class", ch.attr "race"] "?"
    let mn := ch.attr "min"
    let mx := ch.attr "max"
    let rng := if optTruthy mn ∨ optTruthy mx then
        (if optTruthy mn ∧ optTruthy mx then mn.getD "" ++ "到" ++ mx.getD ""
         else firstTruthyD [mn, mx] "?")
      else firstTruthyD [ch.attr "amount"] "?"
    ["boarders " ++ cls ++ " " ++ rng]
  else if tag = "system" then
    ["system:" ++ pyShowOpt (ch.attr "name")]
  else if tag = "damage" ∨ tag = "repair" then
    [tag ++ ":" ++ pyShowOpt (ch.attr "amount")]
  else if tag = "store" then
    let sid := pyStrip ch.text
    if sid ≠ "" then ["store: " ++ sid] else ["store"]
  else if tag = "unlockCustomShip" then
    let t := pyStrip ch.text
    ["unlock: " ++ (if t ≠ "" then t else firstTruthyD [ch.attr "id"] "?")]
  else if tag = "removeItem" then
    let it := pyStrip ch.text
    if it ≠ "" then ["-item: " ++ it] else ["-item"]
  else []

theorem XElem.mlex_kids (e : XElem) :
    2 * XElem.sizeL e.kids + 1 < 2 * e.size := by
  have := XElem.sizeL_kids_lt e
  omega

theorem XElem.mlex_tail (c : XElem) (cs : List XElem) :
    2 * XElem.sizeL cs + 1 < 2 * XElem.sizeL (c :: cs) + 1 := by
  have := XElem.size_pos c
  simp [XElem.sizeL_cons]
  omega

theorem XElem.mlex_head (c : XElem) (cs : List XElem) :
    2 * XElem.size c < 2 * XElem.sizeL (c :: cs) + 1 := by
  simp [XElem.sizeL_cons]
  omega

mutual
/-- The recursive `walk` of `extract_effects`: collect effect strings from
every descendant, never descending into `choice` children. -/
def eff_walk (e : XElem) : List String := eff_walkL e.kids
termination_by 2 * e.size
decreasing_by
  exact XElem.mlex_kids e

/-- `walk` over a child list. -/
def eff_walkL : List XElem → List String
  | [] => []
  | ch :: rest =>
      if ch.ltag == "choice" then eff_walkL rest
      else (eff_tag ch ++ eff_walk ch) ++ eff_walkL rest
termination_by l => 2 * XElem.sizeL l + 1
decreasing_by
  · apply XElem.mlex_tail
  · apply XElem.mlex_head
  · apply XElem.mlex_tail
end

/-- `effects.extract_effects`: collect, localize, deduplicate keeping first. -/
def extract_effects (e : XElem) : List String :=
  (eff_walk e).foldl (fun acc s =>
    let loc := localize_effect_text s
    if acc.contains loc then acc else acc ++ [loc]) []

example : localize_effect_text "奖励（scrap 30）" = "奖励（~ 30）" := by decide
example : localize_effect_text "+weapon:LASER_1" = "+武器:LASER_1" := by decide
example : localize_effect_text "pursuit +1" = "追击进度 +1" := by decide

/-! ## Registry data model (`ftl_search/registry.py`) -/

/-- A file path, modeled as its parts (`pathlib.Path.parts`). -/
structure FPath where
  parts : List String
deriving DecidableEq

/-- `str(path)` (joined with `/` in this model). -/
def FPath.str (p : FPath) : String := pyJoin "/" p.parts

/-- One ship-outcome entry of `Registry.ship_defs`: either a load-reference
string (`{'load': ...}`) or an inline subtree (`{'el': ...}`). -/
inductive ShipDef where
  | load (s : String)
  | el (e : XElem)
deriving DecidableEq

/-- The corpus-wide lookup tables of `registry.Registry`.  Python dicts are
modeled as association lists with unique keys in insertion order. -/
structure Registry where
  data_dir : FPath
  events : List (String × FPath × XElem)
  event_lists : List (String × List XElem)
  text_lists : List (String × List String)
  ship_defs : List (String × List (String × ShipDef))
  event_ancestors : List (String × List String)

/-- `d.get(k)` on an association list. -/
def aget {α : Type} (l : List (String × α)) (k : String) : Option α :=
  (l.find? (fun p => p.1 == k)).map (·.2)

/-- `d[k] = v` on an association list: overwrite in place or append. -/
def aset {α : Type} (l : List (String × α)) (k : String) (v : α) :
    List (String × α) :=
  if (l.find? (fun p => p.1 == k)).isSome then
    l.map (fun p => if p.1 == k then (k, v) else p)
  else l ++ [(k, v)]

/-- `summarize._BLUE_FALSE_SENTINEL`. -/
def blue_false_sentinel : String := "⁣⁣⁣⁣"

/-- `summarize._text_from_text_element` (the registry argument is always
present at the call sites embedded here). -/
def text_from_text_element (o : Option XElem) (reg : Registry) : String :=
  match o with
  | none => ""
  | some el =>
      let txt := pyStrip el.text
      let load := el.attrD "load"
      if load ≠ "" then
        match aget reg.text_lists load with
        | some vals =>
            if vals ≠ [] then
              "[textList " ++ load ++ "] " ++ pyJoin " | " (vals.take 2)
            else "[textList " ++ load ++ "]"
        | none => "[textList " ++ load ++ "]"
      else if optTruthy (el.attr "id") then
        "[text id=" ++ el.attrD "id" ++ "] " ++ txt
      else txt

/-! ## Random-branch grouping and probability rendering
(`summarize._handle_event_ref` lines 124–150 and the three identical blocks
in `_summarize_event`). -/

/-- Grouping key for one event-list item: load-references group by target
name, inline subtrees by serialized content (structural identity). -/
inductive GKey where
  | loadRef (s : String)
  | inline (e : XElem)
deriving DecidableEq

/-- The key of one item (`("load", name)` vs `("inline", ET.tostring(it))`). -/
def item_key (it : XElem) : GKey :=
  if it.attrD "load" ≠ "" then .loadRef (it.attrD "load") else .inline it

/-- One step of the `groups`/`order` accumulation: first occurrence appends
`(key, item, 1)`, later occurrences increment the count and keep the first
representative. -/
def group_step (acc : List (GKey × XElem × Nat)) (it : XElem) :
    List (GKey × XElem × Nat) :=
  let k := item_key it
  if (acc.find? (fun g => g.1 == k)).isSome then
    acc.map (fun g => if g.1 == k then (g.1, g.2.1, g.2.2 + 1) else g)
  else acc ++ [(k, it, 1)]

/-- Group an event-list's items in first-seen order with multiplicities. -/
def group_items (items : List XElem) : List (GKey × XElem × Nat) :=
  items.foldl group_step []

/-- `total = len(items) if len(items) > 0 else 1`. -/
def list_total (items : List XElem) : Nat :=
  if items.length > 0 then items.length else 1

/-- Fuel-driven `⌊log₂ n⌋` on naturals (`nlog2 n n` for `n ≥ 1`); the fuel
makes the recursion structural so concrete values reduce in the kernel. -/
def nlog2 : Nat → Nat → Nat
  | 0, _ => 0
  | fuel + 1, n => if n ≤ 1 then 0 else nlog2 fuel (n / 2) + 1

/-- Round half to even (the tie-breaking of IEEE-754 rounding, of Python's
`round` on a float, and of Python's fixed-point string formatting), on an
exact rational. -/
def round_half_even_of (q : ℚ) : ℤ :=
  if Int.fract q = 1/2 then (if 2 ∣ ⌊q⌋ then ⌊q⌋ else ⌊q⌋ + 1) else round q

/-- `⌊log₂ q⌋` of a positive rational. -/
def ilog2 (q : ℚ) : ℤ :=
  let la : ℤ := nlog2 q.num.natAbs q.num.natAbs
  let lb : ℤ := nlog2 q.den q.den
  if q < 2 ^ (la - lb) then la - lb - 1 else la - lb

/-- The IEEE-754 binary64 neighbour of a positive rational: the significand
`q / 2^(⌊log₂ q⌋ - 52)` lies in `[2^52, 2^53)` and is rounded to the nearest
integer, ties to even. -/
def flPos (q : ℚ) : ℚ :=
  (round_half_even_of (q / 2 ^ (ilog2 q - 52)) : ℚ) * 2 ^ (ilog2 q - 52)

/-- IEEE-754 binary64 rounding (round to nearest, ties to even) as a map on
exact rationals, on the normal range (no overflow or subnormal clamping —
faithful for every value reached by the expressions modeled here). -/
def fl (q : ℚ) : ℚ :=
  if 0 < q then flPos q else if q < 0 then -flPos (-q) else 0

/-- The rendered probability of a group, following the Python float
semantics operation by operation: `p = cnt * 100.0 / total` converts `cnt`
to a double, multiplies by `100.0` and divides by the converted `total`,
rounding each step (`fl`); `round(p)` is the exact nearest integer of the
double `p`, ties to even; the guard compares the rounded float difference
`abs(p - round(p))` against the double literal `0.05 = fl (1/20)`;
`f"{p:.0f}"` prints `round_half_even_of p` and `f"{p:.1f}"` prints the
half-even rounding of `10 * p` (of the double's exact value — string
formatting is correctly rounded) with one decimal digit. -/
def p_str (cnt total : Nat) : String :=
  let p := fl (fl (fl (cnt : ℚ) * 100) / fl (total : ℚ))
  let rp := round_half_even_of p
  if |fl (p - fl ((rp : ℚ)))| < fl (1/20) then
    toString rp.toNat ++ "%"
  else
    let n1 := (round_half_even_of (10 * p)).toNat
    toString (n1 / 10) ++ "." ++ toString (n1 % 10) ++ "%"

/-! ## The expansion state and the termination measure -/

/-- The mutable state threaded through `_summarize_event`: the output lines
and the render-wide `expanded` set.  The path-scoped `visited` set is passed
downward only (each `visited.add(key)` in the Python code is paired with a
`visited.discard(key)` after the recursive call, so along every call the set
seen by a callee is exactly the caller's set plus the keys added on the
current path). -/
structure RSt where
  lines : List String
  expanded : List String
deriving DecidableEq

/-- Append one output line. -/
def RSt.put (st : RSt) (l : String) : RSt := ⟨st.lines ++ [l], st.expanded⟩

/-- The reference keys (`E:name` / `L:name`) known to the registry: the
universe from which `visited` entries that stop recursion are drawn. -/
def reg_keys (reg : Registry) : List String :=
  reg.events.map (fun p => "E:" ++ p.1) ++ reg.event_lists.map (fun p => "L:" ++ p.1)

/-- Number of registry keys not yet on the current path: the dominant
component of the expander's termination measure. -/
def unvisited (reg : Registry) (vis : List String) : Nat :=
  (reg_keys reg).countP (fun k => !vis.contains k)

theorem countP_not_contains_cons_lt (l : List String) (vis : List String)
    (k : String) (hk : k ∈ l) (hnv : vis.contains k = false) :
    l.countP (fun x => !(k :: vis).contains x) <
      l.countP (fun x => !vis.contains x) := by
  have hknv : k ∉ vis := by simpa using hnv
  induction l with
  | nil => cases hk
  | cons hd tl ih =>
      have hmono : tl.countP (fun x => !(k :: vis).contains x) ≤
          tl.countP (fun x => !vis.contains x) := by
        apply List.countP_mono_left
        intro a _ ha
        simp only [List.contains_cons, Bool.not_eq_true', Bool.or_eq_false_iff] at ha ⊢
        exact ha.2
      by_cases hhd : hd = k
      · subst hhd
        have e1 : List.countP (fun x => !(hd :: vis).contains x) (hd :: tl) =
            List.countP (fun x => !(hd :: vis).contains x) tl := by
          simp [List.countP_cons]
        have e2 : List.countP (fun x => !vis.contains x) (hd :: tl) =
            List.countP (fun x => !vis.contains x) tl + 1 := by
          simp [List.countP_cons, hknv]
        rw [e1, e2]
        omega
      · have hk' : k ∈ tl := by
          rcases List.mem_cons.mp hk with h | h
          · exact absurd h.symm hhd
          · exact h
        have hlt := ih hk'
        by_cases hv : hd ∈ vis
        · have e1 : List.countP (fun x => !(k :: vis).contains x) (hd :: tl) =
              List.countP (fun x => !(k :: vis).contains x) tl := by
            simp [List.countP_cons, hv]
          have e2 : List.countP (fun x => !vis.contains x) (hd :: tl) =
              List.countP (fun x => !vis.contains x) tl := by
            simp [List.countP_cons, hv]
          rw [e1, e2]
          exact hlt
        · have e1 : List.countP (fun x => !(k :: vis).contains x) (hd :: tl) =
              List.countP (fun x => !(k :: vis).contains x) tl + 1 := by
            simp [List.countP_cons, hv, hhd]
          have e2 : List.countP (fun x => !vis.contains x) (hd :: tl) =
              List.countP (fun x => !vis.contains x) tl + 1 := by
            simp [List.countP_cons, hv]
          rw [e1, e2]
          omega

theorem unvisited_cons_lt {reg : Registry} {vis : List String} {k : String}
    (hk : k ∈ reg_keys reg) (hnv : vis.contains k = false) :
    unvisited reg (k :: vis) < unvisited reg vis :=
  countP_not_contains_cons_lt (reg_keys reg) vis k hk hnv

theorem mem_reg_keys_event {reg : Registry} {load : String} {v : FPath × XElem}
    (h : aget reg.events load = some v) : ("E:" ++ load) ∈ reg_keys reg := by
  unfold aget at h
  rcases Option.map_eq_some'.mp h with ⟨p, hp, _⟩
  have hmem := List.mem_of_find?_eq_some hp
  have hkey : p.1 = load := by
    have := List.find?_some hp
    simpa [beq_iff_eq] using this
  unfold reg_keys
  apply List.mem_append_left
  exact List.mem_map.mpr ⟨p, hmem, by rw [hkey]⟩

theorem mem_reg_keys_list {reg : Registry} {load : String} {v : List XElem}
    (h : aget reg.event_lists load = some v) : ("L:" ++ load) ∈ reg_keys reg := by
  unfold aget at h
  rcases Option.map_eq_some'.mp h with ⟨p, hp, _⟩
  have hmem := List.mem_of_find?_eq_some hp
  have hkey : p.1 = load := by
    have := List.find?_some hp
    simpa [beq_iff_eq] using this
  unfold reg_keys
  apply List.mem_append_right
  exact List.mem_map.mpr ⟨p, hmem, by rw [hkey]⟩

theorem mem_reg_keys_event_isSome {reg : Registry} {load : String}
    (h : (aget reg.events load).isSome = true) : ("E:" ++ load) ∈ reg_keys reg := by
  rcases Option.isSome_iff_exists.mp h with ⟨v, hv⟩
  exact mem_reg_keys_event hv

theorem mem_reg_keys_list_isSome {reg : Registry} {load : String}
    (h : (aget reg.event_lists load).isSome = true) : ("L:" ++ load) ∈ reg_keys reg := by
  rcases Option.isSome_iff_exists.mp h with ⟨v, hv⟩
  exact mem_reg_keys_list hv

/-- Total size of the representatives of a group list (measure component). -/
def grp_size (groups : List (GKey × XElem × Nat)) : Nat :=
  match groups with
  | [] => 0
  | g :: rest => g.2.1.size + grp_size rest

theorem grp_size_head_le (g : GKey × XElem × Nat) (rest : List (GKey × XElem × Nat)) :
    g.2.1.size ≤ grp_size (g :: rest) := by
  simp [grp_size]

theorem grp_size_tail_lt (g : GKey × XElem × Nat) (rest : List (GKey × XElem × Nat)) :
    grp_size rest < grp_size (g :: rest) := by
  have := XElem.size_pos g.2.1
  simp [grp_size]
  omega

/-! ## Lexicographic measure helpers for the expander's termination proof.
The measure of every expander function is the 4-tuple
(registry keys not on the current path, remaining depth budget `maxD + 3 - d`,
structural size of the pending work, function index). -/

theorem nlex4_a {a a' b b' c c' i i' : Nat} (h : a < a') :
    Prod.Lex (· < ·) (Prod.Lex (· < ·) (Prod.Lex (· < ·) (· < ·)))
      ((a, b, c, i) : Nat × Nat × Nat × Nat) (a', b', c', i') :=
  Prod.Lex.left _ _ h

theorem nlex4_b {a b b' c c' i i' : Nat} (h : b < b') :
    Prod.Lex (· < ·) (Prod.Lex (· < ·) (Prod.Lex (· < ·) (· < ·)))
      ((a, b, c, i) : Nat × Nat × Nat × Nat) (a, b', c', i') :=
  Prod.Lex.right _ (Prod.Lex.left _ _ h)

theorem nlex4_c {a b c c' i i' : Nat} (h : c < c') :
    Prod.Lex (· < ·) (Prod.Lex (· < ·) (Prod.Lex (· < ·) (· < ·)))
      ((a, b, c, i) : Nat × Nat × Nat × Nat) (a, b, c', i') :=
  Prod.Lex.right _ (Prod.Lex.right _ (Prod.Lex.left _ _ h))

theorem nlex4_d {a b c i i' : Nat} (h : i < i') :
    Prod.Lex (· < ·) (Prod.Lex (· < ·) (Prod.Lex (· < ·) (· < ·)))
      ((a, b, c, i) : Nat × Nat × Nat × Nat) (a, b, c, i') :=
  Prod.Lex.right _ (Prod.Lex.right _ (Prod.Lex.right _ h))

theorem nlex4_cd {a b c c' i i' : Nat} (hc : c ≤ c') (hi : i < i') :
    Prod.Lex (· < ·) (Prod.Lex (· < ·) (Prod.Lex (· < ·) (· < ·)))
      ((a, b, c, i) : Nat × Nat × Nat × Nat) (a, b, c', i') := by
  rcases Nat.lt_or_ge c c' with h | h
  · exact nlex4_c h
  · have : c = c' := Nat.le_antisymm hc h
    subst this
    exact nlex4_d hi

theorem nlex4_bcd {a b b' c c' i i' : Nat} (hb : b ≤ b') (hc : c ≤ c')
    (hi : i < i') :
    Prod.Lex (· < ·) (Prod.Lex (· < ·) (Prod.Lex (· < ·) (· < ·)))
      ((a, b, c, i) : Nat × Nat × Nat × Nat) (a, b', c', i') := by
  rcases Nat.lt_or_ge b b' with h | h
  · exact nlex4_b h
  · have : b = b' := Nat.le_antisymm hb h
    subst this
    exact nlex4_cd hc hi

theorem XElem.sizeL_filter_lt_cons (p : XElem → Bool) (c : XElem) (cs : List XElem) :
    XElem.sizeL (c.kids.filter p) < XElem.sizeL (c :: cs) := by
  have h1 := XElem.sizeL_filter p c.kids
  have h2 := XElem.sizeL_kids_lt c
  simp only [XElem.sizeL_cons]
  omega

theorem XElem.sizeL_tail_lt_cons (c : XElem) (cs : List XElem) :
    XElem.sizeL cs < XElem.sizeL (c :: cs) := by
  have := XElem.size_pos c
  simp only [XElem.sizeL_cons]
  omega

theorem XElem.size_head_le_cons (c : XElem) (cs : List XElem) :
    c.size ≤ XElem.sizeL (c :: cs) := by
  simp only [XElem.sizeL_cons]
  omega

/-! ## The expander (`summarize._summarize_event` / `_handle_event_ref`) -/

/-- The `OPTION_INVALID` detection of `_summarize_event` (lines 199–236):
does the choice's immediate outcome set contain the invalid-option sentinel? -/
def choice_invalid (reg : Registry)
    (nested_events nested_lists load_events load_eventlists : List XElem) : Bool :=
  nested_events.any (fun ev => ev.attr "load" == some "OPTION_INVALID") ||
  load_events.any (fun le1 => pyStrip le1.text == "OPTION_INVALID") ||
  nested_lists.any (fun evl =>
    let load := evl.attrD "load"
    if load ≠ "" then
      ((aget reg.event_lists load).getD []).any
        (fun it => it.attr "load" == some "OPTION_INVALID")
    else
      (evl.kids.filter (fun t => t.ltag == "event")).any
        (fun it => it.attr "load" == some "OPTION_INVALID")) ||
  load_eventlists.any (fun lel =>
    let name := pyStrip lel.text
    if name = "" then false
    else ((aget reg.event_lists name).getD []).any
      (fun it => it.attr "load" == some "OPTION_INVALID"))

mutual

/-- `summarize._summarize_event`: emit lead text, effects digest, choices
with their outcomes, and hostile-ship combat outcomes.  `vis` is the
path-scoped `visited` set; the state carries the output lines and the
render-wide `expanded` set. -/
def summarize_event (reg : Registry) (maxD : Nat) (e : XElem) (d : Nat)
    (vis : List String) (st : RSt) : RSt :=
  if hguard : d > maxD then st.put (indentStr d ++ "…")
  else
    let txtNodes := e.kids.filter (fun ch => ch.ltag == "text")
    let txtRaw := match txtNodes with
      | [] => ""
      | t :: _ => text_from_text_element (some t) reg
    let st1 := if txtRaw ≠ "" then
        st.put (indentStr d ++ "文本: " ++ abbrev_text txtRaw) else st
    let eff := extract_effects e
    let st2 := if eff ≠ [] then
        st1.put (indentStr d ++ "效果: " ++ pyJoin ", " eff) else st1
    let st3 := summarize_choices reg maxD e.kids d (Nat.le_of_not_lt hguard) vis st2
    summarize_ships reg maxD e.kids d (Nat.le_of_not_lt hguard) vis st3
termination_by (unvisited reg vis, maxD + 3 - d, e.size, 0)
decreasing_by
  all_goals exact nlex4_c (XElem.sizeL_kids_lt e)

/-- The `for ch in list(event_el)` loop of `_summarize_event` that renders
each `choice` child and its outcomes (including the `OPTION_INVALID`
suppression with its ineffective mojibake-prefixed retraction guard). -/
def summarize_choices (reg : Registry) (maxD : Nat) (chs : List XElem) (d : Nat)
    (hd2 : d ≤ maxD) (vis : List String) (st : RSt) : RSt :=
  match chs with
  | [] => st
  | ch :: rest =>
      if ch.ltag == "choice" then
        let ctextNodes := ch.kids.filter (fun t => t.ltag == "text")
        let ctext := match ctextNodes with
          | [] => ""
          | t :: _ => text_from_text_element (some t) reg
        let b := ch.attr "blue"
        let meta1 : List String :=
          if optTruthy (ch.attr "req") then ["req=" ++ ch.attrD "req"] else []
        let meta2 := meta1 ++
          (if ch.attr "hidden" = some "true" ∨ ch.attr "hidden" = some "1"
           then ["hidden"] else [])
        let suffix1 := if meta2 ≠ [] then " [" ++ pyJoin "; " meta2 ++ "]" else ""
        let suffix := if b = some "false" ∨ b = some "0"
          then suffix1 ++ blue_false_sentinel else suffix1
        let stA := st.put (indentStr d ++ "选择: " ++ abbrev_text ctext ++ suffix)
        let nested_events := ch.kids.filter (fun t => t.ltag == "event")
        let nested_lists := ch.kids.filter (fun t => t.ltag == "eventList")
        let load_events := ch.kids.filter (fun t => t.ltag == "loadEvent")
        let load_eventlists := ch.kids.filter (fun t => t.ltag == "loadEventList")
        if choice_invalid reg nested_events nested_lists load_events load_eventlists then
          -- `out_lines.pop()` guarded by a `startswith` against a
          -- mojibake-corrupted prefix (`"ѡ��:"`, the intended `"选择:"`).
          let stB := match stA.lines.getLast? with
            | some lastLine =>
                if pyStartsWith lastLine (indentStr d ++ "ѡ��:") then
                  ⟨stA.lines.dropLast, stA.expanded⟩
                else stA
            | none => stA
          summarize_choices reg maxD rest d hd2 vis stB
        else
          let stB := if nested_events.length > 1
            then expand_multi_events reg maxD nested_events 1 d hd2 vis stA
            else expand_single_events reg maxD nested_events d hd2 vis stA
          let stC := expand_nested_lists reg maxD nested_lists d hd2 vis stB
          let stD := expand_load_events reg maxD load_events d hd2 vis stC
          let stE := expand_load_eventlists reg maxD load_eventlists d hd2 vis stD
          summarize_choices reg maxD rest d hd2 vis stE
      else summarize_choices reg maxD rest d hd2 vis st
termination_by (unvisited reg vis, maxD + 3 - d, XElem.sizeL chs, 5)
decreasing_by
  all_goals first
    | exact nlex4_c (XElem.sizeL_filter_lt_cons _ _ _)
    | exact nlex4_c (XElem.sizeL_tail_lt_cons _ _)

/-- The `len(nested_events) > 1` branch: each sibling inline event is an
equally-weighted random branch, expanded one indent level deeper. -/
def expand_multi_events (reg : Registry) (maxD : Nat) (evs : List XElem)
    (bidx : Nat) (d : Nat) (hd2 : d ≤ maxD) (vis : List String) (st : RSt) : RSt :=
  match evs with
  | [] => st
  | ev :: rest =>
      let st1 := st.put (indentStr (d + 1) ++ "→ 随机分支" ++ toString bidx ++ "：")
      let st2 := handle_event_ref reg maxD ev (d + 1) vis st1
      expand_multi_events reg maxD rest (bidx + 1) d hd2 vis st2
termination_by (unvisited reg vis, maxD + 3 - d, XElem.sizeL evs, 5)
decreasing_by
  all_goals first
    | (apply nlex4_b; omega)
    | exact nlex4_c (XElem.sizeL_tail_lt_cons _ _)

/-- The single-inline-event branch: the outcome is expanded at the same
indent level as the choice. -/
def expand_single_events (reg : Registry) (maxD : Nat) (evs : List XElem)
    (d : Nat) (hd2 : d ≤ maxD) (vis : List String) (st : RSt) : RSt :=
  match evs with
  | [] => st
  | ev :: rest =>
      expand_single_events reg maxD rest d hd2 vis
        (handle_event_ref reg maxD ev d vis st)
termination_by (unvisited reg vis, maxD + 3 - d, XElem.sizeL evs, 5)
decreasing_by
  all_goals first
    | exact nlex4_cd (XElem.size_head_le_cons _ _) (by omega)
    | exact nlex4_c (XElem.sizeL_tail_lt_cons _ _)

/-- The `for evl in nested_lists` loop: a referenced or inline event-list
under a choice, rendered as grouped random branches. -/
def expand_nested_lists (reg : Registry) (maxD : Nat) (evls : List XElem)
    (d : Nat) (hd2 : d ≤ maxD) (vis : List String) (st : RSt) : RSt :=
  match evls with
  | [] => st
  | evl :: rest =>
      let load := evl.attrD "load"
      let stN :=
        if load ≠ "" then
          let st1 := st.put (indentStr (d + 1) ++ "→ 事件列表 " ++ load ++ "：")
          let items := (aget reg.event_lists load).getD []
          if items.isEmpty then st1.put (indentStr (d + 2) ++ "(空)")
          else expand_groups reg maxD (group_items items) (list_total items) 1
            (d + 2) vis st1
        else
          let children := evl.kids.filter (fun t => t.ltag == "event")
          let st1 := st.put (indentStr (d + 1) ++ "→ 事件列表（内联）共 "
            ++ toString children.length ++ " 个：")
          if children.isEmpty then st1.put (indentStr (d + 2) ++ "(空)")
          else expand_groups reg maxD (group_items children) (list_total children) 1
            (d + 2) vis st1
      expand_nested_lists reg maxD rest d hd2 vis stN
termination_by (unvisited reg vis, maxD + 3 - d, XElem.sizeL evls, 5)
decreasing_by
  all_goals first
    | (apply nlex4_b; omega)
    | exact nlex4_c (XElem.sizeL_tail_lt_cons _ _)

/-- The `for le in load_events` loop: a `loadEvent` indirection becomes a
synthetic `<event load=...>` element resolved one level deeper. -/
def expand_load_events (reg : Registry) (maxD : Nat) (les : List XElem)
    (d : Nat) (hd2 : d ≤ maxD) (vis : List String) (st : RSt) : RSt :=
  match les with
  | [] => st
  | le1 :: rest =>
      let name := pyStrip le1.text
      if name = "" then expand_load_events reg maxD rest d hd2 vis st
      else
        let st1 := st.put (indentStr (d + 1) ++ "→ 事件 " ++ name)
        let st2 := handle_event_ref reg maxD
          (XElem.mk "event" [("load", name)] "" "" []) (d + 1) vis st1
        expand_load_events reg maxD rest d hd2 vis st2
termination_by (unvisited reg vis, maxD + 3 - d, XElem.sizeL les, 5)
decreasing_by
  all_goals first
    | (apply nlex4_b; omega)
    | exact nlex4_c (XElem.sizeL_tail_lt_cons _ _)

/-- The `for lel in load_eventlists` loop: a `loadEventList` indirection,
rendered as grouped random branches of the referenced list. -/
def expand_load_eventlists (reg : Registry) (maxD : Nat) (lels : List XElem)
    (d : Nat) (hd2 : d ≤ maxD) (vis : List String) (st : RSt) : RSt :=
  match lels with
  | [] => st
  | lel :: rest =>
      let name := pyStrip lel.text
      if name = "" then expand_load_eventlists reg maxD rest d hd2 vis st
      else
        let st1 := st.put (indentStr (d + 1) ++ "→ 事件列表 " ++ name ++ "：")
        let items := (aget reg.event_lists name).getD []
        let st2 := if items.isEmpty then st1.put (indentStr (d + 2) ++ "(空)")
          else expand_groups reg maxD (group_items items) (list_total items) 1
            (d + 2) vis st1
        expand_load_eventlists reg maxD rest d hd2 vis st2
termination_by (unvisited reg vis, maxD + 3 - d, XElem.sizeL lels, 5)
decreasing_by
  all_goals first
    | (apply nlex4_b; omega)
    | exact nlex4_c (XElem.sizeL_tail_lt_cons _ _)

/-- The random-branch rendering loop shared by all four event-list expansion
sites: one `随机分支` header per group, then the representative is resolved
(load-references through `handle_event_ref` at the same depth, inline
subtrees through `summarize_event` one level deeper). -/
def expand_groups (reg : Registry) (maxD : Nat) (groups : List (GKey × XElem × Nat))
    (total bidx : Nat) (dg : Nat) (vis : List String) (st : RSt) : RSt :=
  match groups with
  | [] => st
  | g :: rest =>
      let rep := g.2.1
      let cnt := g.2.2
      let st1 := st.put (indentStr dg ++ "随机分支" ++ toString bidx ++ " (p="
        ++ p_str cnt total ++ ")：")
      let st2 := if rep.attrD "load" ≠ ""
        then handle_event_ref reg maxD rep dg vis st1
        else summarize_event reg maxD rep (dg + 1) vis st1
      expand_groups reg maxD rest total (bidx + 1) dg vis st2
termination_by (unvisited reg vis, maxD + 3 - dg, grp_size groups, 2)
decreasing_by
  all_goals first
    | exact nlex4_cd (grp_size_head_le _ _) (by omega)
    | exact nlex4_bcd (by omega) (grp_size_head_le _ _) (by omega)
    | exact nlex4_c (grp_size_tail_lt _ _)

/-- `summarize._handle_event_ref`: resolve a load-reference against the
registry with cycle detection (path-scoped `visited`) and re-expansion
suppression (render-wide `expanded`). -/
def handle_event_ref (reg : Registry) (maxD : Nat) (e : XElem) (d : Nat)
    (vis : List String) (st : RSt) : RSt :=
  let load := e.attrD "load"
  if load = "" then summarize_event reg maxD e (d + 1) vis st
  else if load = "COMBAT_CHECK" then st
  else if hev : (aget reg.events load).isSome then
    let pr := (aget reg.events load).get hev
    let key := "E:" ++ load
    let label := "→ 事件 " ++ load
    if vis.contains key then
      st.put (indentStr (d + 1) ++ label ++ " (已在当前路径前文展开，检测到循环，略)")
    else if st.expanded.contains key then
      st.put (indentStr (d + 1) ++ label ++ " （已在当前路径前文展开，略）")
    else
      let st1 : RSt := ⟨st.lines ++ [indentStr (d + 1) ++ label],
        st.expanded ++ [key]⟩
      summarize_event reg maxD pr.2 (d + 2) (key :: vis) st1
  else if hel : (aget reg.event_lists load).isSome then
    let items0 := (aget reg.event_lists load).get hel
    let key := "L:" ++ load
    let label := "→ 事件列表 " ++ load
    if vis.contains key then
      st.put (indentStr (d + 1) ++ label ++ " (已在当前路径前文展开，检测到循环，略)")
    else if st.expanded.contains key then
      st.put (indentStr (d + 1) ++ label ++ " （已在当前路径前文展开，略）")
    else
      let st1 : RSt := ⟨st.lines ++ [indentStr (d + 1) ++ label ++ "："],
        st.expanded ++ [key]⟩
      if items0.isEmpty then st1.put (indentStr (d + 2) ++ "(空)")
      else expand_groups reg maxD (group_items items0) (list_total items0) 1
        (d + 2) (key :: vis) st1
  else
    st.put (indentStr (d + 1) ++ "→ 未知 " ++ load ++ " (未找到作为事件或事件列表)")
termination_by (unvisited reg vis, maxD + 3 - d, e.size, 1)
decreasing_by
  all_goals first
    | exact nlex4_bcd (by omega) (le_refl _) (by omega)
    | (apply nlex4_a; apply unvisited_cons_lt (mem_reg_keys_event_isSome hev); simp_all)
    | (apply nlex4_a; apply unvisited_cons_lt (mem_reg_keys_list_isSome hel); simp_all)

/-- The hostile-ship loop at the end of `_summarize_event`: one `战斗:` line
per hostile ship child, then the five outcome kinds. -/
def summarize_ships (reg : Registry) (maxD : Nat) (ns : List XElem) (d : Nat)
    (hd2 : d ≤ maxD) (vis : List String) (st : RSt) : RSt :=
  match ns with
  | [] => st
  | node :: rest =>
      if node.ltag == "ship" &&
          (pyLower ((node.attr "hostile").getD "false") == "true") then
        let ship_key := firstTruthyD [node.attr "load", node.attr "name"] "(未知)"
        let st0 := st.put (indentStr d ++ "战斗: " ++ ship_key)
        let st1 := ship_kind reg maxD node ship_key "surrender" "投降" d hd2 vis st0
        let st2 := ship_kind reg maxD node ship_key "destroyed" "摧毁(胜利)" d hd2 vis st1
        let st3 := ship_kind reg maxD node ship_key "deadCrew" "船员全灭(胜利)" d hd2 vis st2
        let st4 := ship_kind reg maxD node ship_key "escape" "尝试逃跑" d hd2 vis st3
        let st5 := ship_kind reg maxD node ship_key "gotaway" "敌舰逃走" d hd2 vis st4
        summarize_ships reg maxD rest d hd2 vis st5
      else summarize_ships reg maxD rest d hd2 vis st
termination_by (unvisited reg vis, maxD + 3 - d, XElem.sizeL ns, 5)
decreasing_by
  all_goals first
    | exact nlex4_cd (XElem.size_head_le_cons _ _) (by omega)
    | exact nlex4_c (XElem.sizeL_tail_lt_cons _ _)

/-- One outcome kind of a hostile ship (`nodes_for` plus the per-kind block):
inline children win, otherwise the corpus-wide `ship_defs` entry. -/
def ship_kind (reg : Registry) (maxD : Nat) (node : XElem) (ship_key : String)
    (k lab : String) (d : Nat) (hd2 : d ≤ maxD) (vis : List String) (st : RSt) : RSt :=
  let inline := node.kids.filter (fun t => t.ltag == k)
  let subs : List XElem :=
    if !inline.isEmpty then inline
    else
      match aget reg.ship_defs ship_key with
      | none => []
      | some defs =>
          match aget defs k with
          | none => []
          | some (.load s) => [XElem.mk "event" [("load", s)] "" "" []]
          | some (.el e2) => [e2]
  if subs.isEmpty then st
  else
    let st1 := st.put (indentStr (d + 1) ++ lab ++ ":")
    expand_ship_subs reg maxD subs (d + 1) (by omega) vis st1
termination_by (unvisited reg vis, maxD + 3 - d, node.size, 4)
decreasing_by
  all_goals (apply nlex4_b; omega)

/-- The `for sub in subs` loop of a ship outcome: load-references resolve
through `handle_event_ref` (skipping `COMBAT_CHECK`), inline subtrees
through `summarize_event` one level deeper. -/
def expand_ship_subs (reg : Registry) (maxD : Nat) (subs : List XElem)
    (dp : Nat) (hdp : dp ≤ maxD + 1) (vis : List String) (st : RSt) : RSt :=
  match subs with
  | [] => st
  | sub :: rest =>
      let stN :=
        if sub.attrD "load" ≠ "" then
          if sub.attrD "load" = "COMBAT_CHECK" then st
          else handle_event_ref reg maxD sub dp vis st
        else summarize_event reg maxD sub (dp + 1) vis st
      expand_ship_subs reg maxD rest dp hdp vis stN
termination_by (unvisited reg vis, maxD + 3 - dp, XElem.sizeL subs, 3)
decreasing_by
  all_goals first
    | exact nlex4_cd (XElem.size_head_le_cons _ _) (by omega)
    | (apply nlex4_b; omega)
    | exact nlex4_c (XElem.sizeL_tail_lt_cons _ _)

end

/-! ## Search-side data model (`ftl_search/cli.py`, `registry.py` entries) -/

/-- `registry.EventEntry`. -/
structure EventEntry where
  name : String
  file : FPath
  text : String
  text_nows : String
deriving DecidableEq

/-- `registry.EventNodeEntry`: one indexed `<event>` occurrence (or synthetic
ship-outcome node), with its structural ancestor uid chain. -/
structure EventNodeEntry where
  uid : String
  name : Option String
  file : FPath
  el : XElem
  text : String
  text_nows : String
  ancestors : List String
deriving DecidableEq

/-- `cli._search_nodes`: substring match of the query (and its
whitespace-stripped form) over node texts, deduplicated by uid. -/
def search_nodes (nodes : List EventNodeEntry) (query : String) : List EventNodeEntry :=
  let q := pyStrip query
  if q = "" then []
  else
    let q_nows := pyNoWs q
    (nodes.foldl (fun (acc : List EventNodeEntry × List String) n =>
      if strHasSub n.text q || (q_nows ≠ "" && strHasSub n.text_nows q_nows) then
        if acc.2.contains n.uid then acc else (acc.1 ++ [n], acc.2 ++ [n.uid])
      else acc) ([], [])).1

/-- `cli._minimal_event_nodes`: drop every matched node whose uid occurs in
the ancestor list of some matched node. -/
def minimal_event_nodes (nodes : List EventNodeEntry) : List EventNodeEntry :=
  if nodes.isEmpty then []
  else
    let uids := nodes.map (·.uid)
    let drop := ((nodes.map (·.ancestors)).flatten).filter (fun a => uids.contains a)
    nodes.filter (fun n => !(drop.contains n.uid))

/-- `cli._minimal_events` (name-based pruning over `event_ancestors`). -/
def minimal_events (names : List String) (reg : Registry) : List String :=
  let drop := ((names.map (fun m =>
    ((aget reg.event_ancestors m).getD []).filter (fun a => names.contains a))).flatten)
  names.filter (fun n => !(drop.contains n))

/-- `cli._search` over expanded entries, deduplicated by name. -/
def search_entries (entries : List EventEntry) (query : String) : List String :=
  let q := pyStrip query
  if q = "" then []
  else
    let q_nows := pyNoWs q
    entries.foldl (fun (acc : List String) e =>
      if strHasSub e.text q || (q_nows ≠ "" && strHasSub e.text_nows q_nows) then
        if acc.contains e.name then acc else acc ++ [e.name]
      else acc) []

/-- The uid lookup `{n.uid: n for n in nodes if n.uid}` (last writer wins). -/
def build_uid_lookup (nodes : List EventNodeEntry) (u : String) : Option EventNodeEntry :=
  (nodes.filter (fun n => n.uid ≠ "")).reverse.find? (fun n => n.uid == u)

/-- `cli._nearest_named_ancestor`: innermost ancestor with a truthy name. -/
def nearest_named_ancestor (node : EventNodeEntry)
    (uid_lookup : String → Option EventNodeEntry) : Option String :=
  node.ancestors.reverse.findSome? (fun anc_uid =>
    match uid_lookup anc_uid with
    | some anc => if optTruthy anc.name then anc.name else none
    | none => none)

/-- `cli._relative_to_data`. -/
def relative_to_data (path : Option FPath) (data_dir : FPath) : String :=
  match path with
  | none => "(unknown)"
  | some p =>
      if data_dir.parts.isPrefixOf p.parts then
        pyJoin "/" (p.parts.drop data_dir.parts.length)
      else p.str

/-- Label grouping key of `cli._format_node_match_labels`:
`("named", name)`, `("parent", name)` or `("orphan", uid)`. -/
inductive LabelKey where
  | named (n : String)
  | parentName (n : String)
  | orphan (uid : String)
deriving DecidableEq

/-- One step of the label grouping fold: first occurrence appends the key
(with the orphan's relative-path metadata), later occurrences count up. -/
def fnml_step (data_dir : FPath) (uid_lookup : String → Option EventNodeEntry)
    (acc : List (LabelKey × String × Nat)) (node : EventNodeEntry) :
    List (LabelKey × String × Nat) :=
  let key : LabelKey × String :=
    if optTruthy node.name then (.named (node.name.getD ""), "")
    else match nearest_named_ancestor node uid_lookup with
      | some pn => (.parentName pn, "")
      | none => (.orphan node.uid, relative_to_data (some node.file) data_dir)
  if (acc.find? (fun g => g.1 == key.1)).isSome then
    acc.map (fun g => if g.1 == key.1 then (g.1, g.2.1, g.2.2 + 1) else g)
  else acc ++ [(key.1, key.2, 1)]

/-- Render one grouped label (`named` / `parent` / `orphan` categories). -/
def fnml_render (g : LabelKey × String × Nat) : String :=
  match g.1 with
  | .named n => if g.2.2 > 1 then n ++ " ×" ++ toString g.2.2 else n
  | .parentName n =>
      n ++ " (匿名子事件" ++ (if g.2.2 > 1 then "×" ++ toString g.2.2 else "") ++ ")"
  | .orphan uid =>
      let rel := if g.2.1 ≠ "" then g.2.1 else "(unknown)"
      "匿名事件（无父事件，文件 " ++ rel ++
        (if uid ≠ "" then "，节点 " ++ uid else "") ++ ")"

/-- `cli._format_node_match_labels`: user-facing labels for matched nodes,
anonymous nodes labeled by nearest named ancestor or file+uid, with repeats
collapsed into counts, in first-seen order. -/
def format_node_match_labels (nodes : List EventNodeEntry)
    (uid_lookup : String → Option EventNodeEntry) (data_dir : FPath) : List String :=
  (nodes.foldl (fnml_step data_dir uid_lookup) []).map fnml_render

/-! ## C1: invalid-option suppression -/

/-- Registry used by the C1 evaluation (nothing needs to resolve). -/
def c1_reg : Registry := ⟨⟨["data"]⟩, [], [], [], [], []⟩

/-- An event with one choice whose immediate outcome is the
`OPTION_INVALID` sentinel (an inline `<event load="OPTION_INVALID"/>`). -/
def c1_event : XElem :=
  .mk "event" [] "" ""
    [.mk "text" [] "hello" "" [],
     .mk "choice" [] "" ""
       [.mk "text" [] "go" "" [],
        .mk "event" [("load", "OPTION_INVALID")] "" "" []]]

/-- **C1** — The claim says a choice whose immediate outcome set contains the
`OPTION_INVALID` sentinel is dropped entirely: its already-emitted choice line
is retracted and no outcome is expanded.  On the code, only the second half
holds: the outcomes are skipped, but the `out_lines.pop()` is guarded by
`out_lines[-1].startswith("  "*depth + "ѡ��:")`, whose prefix is a
mojibake-corrupted copy of the emitted `"选择:"` prefix (GB-encoded bytes of
`选` followed by two U+FFFD replacement characters), so the guard never
matches and the choice line `选择: go` stays in the output. -/
theorem summarize_event_invalid_choice_line_not_retracted :
    summarize_event c1_reg 16 c1_event 0 [] ⟨[], []⟩ =
      ⟨["文本: hello", "选择: go"], []⟩ := by
  simp [summarize_event, summarize_choices, summarize_ships, extract_effects,
        eff_walk, eff_walkL, eff_tag, text_from_text_element, choice_invalid,
        XElem.kids, XElem.ltag, XElem.tag, XElem.text, XElem.attr, XElem.attrs,
        XElem.attrD, strip_namespace, pyStrip, pyIsSpace, optTruthy, aget,
        abbrev_text, pyLen, pyJoin, indentStr, RSt.put, pyStartsWith,
        c1_reg, c1_event]

/-! ## C4: cycle detection on a self-referential event -/

theorem listHasInfix_append_of_right {B M : List Char} (A : List Char)
    (h : listHasInfix B M = true) : listHasInfix (A ++ B) M = true := by
  induction A with
  | nil => simpa using h
  | cons a A' ih =>
      unfold listHasInfix
      simp only [List.cons_append]
      rw [Bool.or_eq_true]
      right
      exact ih

theorem listHasInfix_append_false {M : List Char} (A B : List Char) (hd : Char)
    (hM : M.head? = some hd) (hA : hd ∉ A) (hB : listHasInfix B M = false) :
    listHasInfix (A ++ B) M = false := by
  induction A with
  | nil => simpa using hB
  | cons a A' ih =>
      have hA' : hd ∉ A' := fun h => hA (List.mem_cons_of_mem a h)
      have hane : a ≠ hd := fun h => hA (h ▸ List.mem_cons_self a A')
      unfold listHasInfix
      simp only [List.cons_append]
      rw [Bool.or_eq_false_iff]
      constructor
      · cases M with
        | nil => simp at hM
        | cons m M' =>
            have : m = hd := by simpa using hM
            subst this
            simp [List.isPrefixOf]
            intro hcon
            exact absurd hcon.symm hane
      · exact ih hA'

/-- The self-referential event of the C4 family: a named event whose single
choice loads the event itself. -/
def c4_event (n : String) : XElem :=
  .mk "event" [("name", n)] "" ""
    [.mk "choice" [] "" ""
      [.mk "text" [] "go" "" [],
       .mk "event" [("load", n)] "" "" []]]

/-- A registry whose only entry is the self-referential event. -/
def c4_reg (n : String) : Registry :=
  ⟨⟨["data"]⟩, [(n, ⟨["data", "f.xml"]⟩, c4_event n)], [], [], [], []⟩

/-- **C4** — Expanding an event whose subtree re-enters itself via a
load-reference terminates (the expander is a total function, by the
well-founded measure on unvisited registry keys, remaining depth budget and
subtree size) and emits exactly one cycle-detected marker for the re-entry
point.  Proved for every event name `n` (other than the reserved sentinels):
the whole expansion is the explicit four-line rendering below, and exactly
one of its lines carries the `检测到循环` marker. -/
theorem summarize_event_self_reference_single_cycle_marker
    (n : String) (h1 : n ≠ "") (h2 : n ≠ "COMBAT_CHECK")
    (h3 : n ≠ "OPTION_INVALID") (h4 : strHasSub n "检测到循环" = false) :
    (summarize_event (c4_reg n) 16 (c4_event n) 0 [] ⟨[], []⟩).lines =
      ["选择: go", "  → 事件 " ++ n, "    选择: go",
       "      → 事件 " ++ n ++ " (已在当前路径前文展开，检测到循环，略)"] ∧
    ((summarize_event (c4_reg n) 16 (c4_event n) 0 [] ⟨[], []⟩).lines.countP
      (fun l => strHasSub l "检测到循环")) = 1 := by
  have e3 : (n == "OPTION_INVALID") = false := beq_eq_false_iff_ne.mpr h3
  have heq : (summarize_event (c4_reg n) 16 (c4_event n) 0 [] ⟨[], []⟩).lines =
      ["选择: go", "  → 事件 " ++ n, "    选择: go",
       "      → 事件 " ++ n ++ " (已在当前路径前文展开，检测到循环，略)"] := by
    simp [summarize_event, summarize_choices, summarize_ships, extract_effects,
          eff_walk, eff_walkL, eff_tag, text_from_text_element, choice_invalid,
          expand_single_events, expand_multi_events, expand_nested_lists,
          expand_load_events, expand_load_eventlists, handle_event_ref,
          XElem.kids, XElem.ltag, XElem.tag, XElem.text, XElem.attr, XElem.attrs,
          XElem.attrD, strip_namespace, pyStrip, pyIsSpace, optTruthy, aget,
          abbrev_text, pyLen, pyJoin, indentStr, RSt.put, pyStartsWith,
          List.find?, List.contains, beq_self_eq_true, List.contains_cons,
          c4_reg, c4_event, h1, h2, h3, e3]
    constructor
    · rw [← String.append_assoc]
      congr 1
    · rw [← String.append_assoc]
      congr 2
  refine ⟨heq, ?_⟩
  rw [heq]
  have hm : ("检测到循环" : String).data.head? = some '检' := rfl
  have l1 : strHasSub "选择: go" "检测到循环" = false := by decide
  have l3 : strHasSub "    选择: go" "检测到循环" = false := by decide
  have l2 : strHasSub ("  → 事件 " ++ n) "检测到循环" = false := by
    unfold strHasSub
    have hdata : ("  → 事件 " ++ n).data = ("  → 事件 " : String).data ++ n.data := rfl
    rw [hdata]
    apply listHasInfix_append_false _ _ '检' hm
    · decide
    · exact h4
  have l4 : strHasSub ("      → 事件 " ++ n ++ " (已在当前路径前文展开，检测到循环，略)")
      "检测到循环" = true := by
    unfold strHasSub
    have hdata : ("      → 事件 " ++ n ++ " (已在当前路径前文展开，检测到循环，略)").data =
        (("      → 事件 " ++ n).data) ++ (" (已在当前路径前文展开，检测到循环，略)" : String).data := rfl
    rw [hdata]
    apply listHasInfix_append_of_right
    decide
  simp [List.countP_cons, l1, l2, l3, l4]

/-! ## C3 / C10: minimal-match pruning -/

theorem exists_max_image_nat {α : Type} (l : List α) (f : α → Nat) (h : l ≠ []) :
    ∃ x ∈ l, ∀ y ∈ l, f y ≤ f x := by
  induction l with
  | nil => cases h rfl
  | cons a t ih =>
      cases t with
      | nil => exact ⟨a, by simp⟩
      | cons b u =>
          rcases ih (by simp) with ⟨x, hx, hmax⟩
          rcases Nat.le_total (f x) (f a) with hle | hle
          · refine ⟨a, by simp, ?_⟩
            intro y hy
            rcases List.mem_cons.mp hy with rfl | hy'
            · exact le_refl _
            · exact le_trans (hmax y hy') hle
          · refine ⟨x, List.mem_cons_of_mem a hx, ?_⟩
            intro y hy
            rcases List.mem_cons.mp hy with rfl | hy'
            · exact hle
            · exact hmax y hy'

theorem mem_minimal_event_nodes_iff {nodes : List EventNodeEntry}
    {n : EventNodeEntry} (hne : nodes ≠ []) :
    n ∈ minimal_event_nodes nodes ↔
      n ∈ nodes ∧ ¬ (∃ m ∈ nodes, n.uid ∈ m.ancestors) := by
  unfold minimal_event_nodes
  have hE : nodes.isEmpty = false := by
    cases nodes with
    | nil => cases hne rfl
    | cons a t => rfl
  rw [hE]
  simp only [Bool.false_eq_true, if_false]
  rw [List.mem_filter]
  simp [List.mem_flatten, List.mem_map]
  intro hmem
  constructor
  · intro h x hx hanc
    exact absurd rfl (h x hx hanc n hmem)
  · intro h x hx hanc
    exact absurd hanc (h x hx)

/-- Nodes for the C3 counterexample: a three-level matched chain
`A (uid 1)` ⊃ `N (uid 2)` ⊃ `M (uid 3)`. -/
def c3_nodeA : EventNodeEntry :=
  ⟨"1", some "A", ⟨["data", "f.xml"]⟩, .mk "event" [] "" "" [], "t", "t", []⟩

/-- Middle node of the C3 chain (uid 2, ancestor uid 1). -/
def c3_nodeN : EventNodeEntry :=
  ⟨"2", some "N", ⟨["data", "f.xml"]⟩, .mk "event" [] "" "" [], "t", "t", ["1"]⟩

/-- Innermost node of the C3 chain (uid 3, ancestors uids 1 and 2). -/
def c3_nodeM : EventNodeEntry :=
  ⟨"3", some "M", ⟨["data", "f.xml"]⟩, .mk "event" [] "" "" [], "t", "t", ["1", "2"]⟩

/-- The matched set of the C3 counterexample. -/
def c3_nodes : List EventNodeEntry := [c3_nodeA, c3_nodeN, c3_nodeM]

/-- **C3 (counterexample)** — The claim states that whenever the matched set
contains `N` and a node `A` whose uid occurs in `N`'s ancestors, pruning
returns a set that contains `N` (and not `A`).  False on the code: in the
three-level matched chain `c3_nodes`, take `N` = uid 2 and `A` = uid 1; the
hypothesis holds, yet `_minimal_event_nodes` drops uid 2 as well, because
uid 2 is itself listed among the ancestors of the matched node uid 3 — only
uid 3 survives. -/
theorem minimal_event_nodes_middle_node_dropped :
    c3_nodeA.uid ∈ c3_nodeN.ancestors ∧
    c3_nodeN ∉ minimal_event_nodes c3_nodes ∧
    minimal_event_nodes c3_nodes = [c3_nodeM] := by
  decide

/-- **C3** — Amended claim: for matched nodes `N` and `A` with `A.uid` in
`N`'s structural ancestor list, minimal-match pruning never returns `A`; and
it returns `N` provided `N`'s own uid is not listed among the ancestors of
any matched node. -/
theorem minimal_event_nodes_keeps_child_drops_ancestor
    (nodes : List EventNodeEntry) (N A : EventNodeEntry)
    (hN : N ∈ nodes) (_hA : A ∈ nodes) (hanc : A.uid ∈ N.ancestors) :
    A ∉ minimal_event_nodes nodes ∧
    ((∀ M ∈ nodes, N.uid ∉ M.ancestors) → N ∈ minimal_event_nodes nodes) := by
  have hne : nodes ≠ [] := by
    intro h
    rw [h] at hN
    cases hN
  constructor
  · intro hmem
    rcases (mem_minimal_event_nodes_iff hne).mp hmem with ⟨_, hno⟩
    exact hno ⟨N, hN, hanc⟩
  · intro hfree
    refine (mem_minimal_event_nodes_iff hne).mpr ⟨hN, ?_⟩
    rintro ⟨m, hm, hmm⟩
    exact hfree m hm hmm

/-- **C3 (witness)** — the amended claim applied at the concrete chain
`c3_nodes`, with `N` = uid 3 (the innermost match) and `A` = uid 1. -/
theorem minimal_event_nodes_keeps_child_drops_ancestor_witness :
    c3_nodeA ∉ minimal_event_nodes c3_nodes ∧
    c3_nodeM ∈ minimal_event_nodes c3_nodes :=
  ⟨(minimal_event_nodes_keeps_child_drops_ancestor c3_nodes c3_nodeM
      c3_nodeA (by decide) (by decide) (by decide)).1,
   (minimal_event_nodes_keeps_child_drops_ancestor c3_nodes c3_nodeM
      c3_nodeA (by decide) (by decide) (by decide)).2 (by decide)⟩

/-- **C10** — On a nonempty matched-node list whose ancestor uid lists are
consistent with an acyclic structural-nesting relation (witnessed by a rank
function that strictly increases from listed ancestor uids to the owning
node's uid), `_minimal_event_nodes` returns a subsequence of its input in
the original order, and never discards every match. -/
theorem minimal_event_nodes_nonempty_sublist
    (nodes : List EventNodeEntry) (hne : nodes ≠ [])
    (rank : String → Nat)
    (hrank : ∀ n ∈ nodes, ∀ a ∈ n.ancestors, a ∈ nodes.map (·.uid) →
      rank a < rank n.uid) :
    (minimal_event_nodes nodes).Sublist nodes ∧ minimal_event_nodes nodes ≠ [] := by
  constructor
  · unfold minimal_event_nodes
    have hE : nodes.isEmpty = false := by
      cases nodes with
      | nil => cases hne rfl
      | cons a t => rfl
    rw [hE]
    simp only [Bool.false_eq_true, if_false]
    exact List.filter_sublist nodes
  · rcases exists_max_image_nat nodes (fun n => rank n.uid) hne with ⟨nmax, hmem, hmax⟩
    have : nmax ∈ minimal_event_nodes nodes := by
      refine (mem_minimal_event_nodes_iff hne).mpr ⟨hmem, ?_⟩
      rintro ⟨m, hm, hanc⟩
      have h1 : rank nmax.uid < rank m.uid :=
        hrank m hm nmax.uid hanc (List.mem_map.mpr ⟨nmax, hmem, rfl⟩)
      have h2 : rank m.uid ≤ rank nmax.uid := hmax m hm
      omega
    exact List.ne_nil_of_mem this

/-- Nodes for the C10 witness: a parent (uid 1) and its anonymous child (uid 2). -/
def c10_nodes : List EventNodeEntry :=
  [⟨"1", some "P", ⟨["data", "f.xml"]⟩, .mk "event" [] "" "" [], "t", "t", []⟩,
   ⟨"2", none, ⟨["data", "f.xml"]⟩, .mk "event" [] "" "" [], "t", "t", ["1"]⟩]

/-- **C10 (witness)** — the theorem at the concrete two-node chain, with an
explicit rank function exhibiting the acyclic nesting. -/
theorem minimal_event_nodes_nonempty_sublist_witness :
    (minimal_event_nodes c10_nodes).Sublist c10_nodes ∧
    minimal_event_nodes c10_nodes ≠ [] :=
  minimal_event_nodes_nonempty_sublist c10_nodes (by decide)
    (fun s => if s = "2" then 1 else 0) (by decide)

/-- **C4 (witness)** — the cycle theorem applied at the concrete name
`SELF_LOOP`. -/
theorem summarize_event_self_reference_single_cycle_marker_witness :
    ((summarize_event (c4_reg "SELF_LOOP") 16 (c4_event "SELF_LOOP") 0 []
      ⟨[], []⟩).lines.countP (fun l => strHasSub l "检测到循环")) = 1 :=
  (summarize_event_self_reference_single_cycle_marker "SELF_LOOP" (by decide)
    (by decide) (by decide) (by decide)).2

/-! ## C2: random-branch grouping and probability rendering -/

/-- Deduplication keeping the first occurrence of each element: the
specification-side description of the `groups`/`order` dictionaries
("groups are rendered in first-seen order"). -/
def dedup_first {α : Type} [DecidableEq α] : List α → List α
  | [] => []
  | x :: xs => x :: dedup_first (xs.filter (fun y => y != x))
termination_by l => l.length
decreasing_by
  have := List.length_filter_le (fun y => y != x) xs
  simp only [List.length_cons]
  omega

theorem mem_dedup_first {α : Type} [DecidableEq α] (l : List α) (a : α) :
    a ∈ dedup_first l ↔ a ∈ l := by
  suffices H : ∀ n (l : List α), l.length ≤ n → ∀ a : α, (a ∈ dedup_first l ↔ a ∈ l) from
    H l.length l (le_refl _) a
  intro n
  induction n with
  | zero =>
      intro l hlen a
      cases l with
      | nil => simp [dedup_first]
      | cons x xs => simp at hlen
  | succ n ih =>
      intro l hlen a
      cases l with
      | nil => simp [dedup_first]
      | cons x xs =>
          rw [dedup_first]
          have hlen' : (xs.filter (fun y => y != x)).length ≤ n := by
            have := List.length_filter_le (fun y => y != x) xs
            simp only [List.length_cons] at hlen
            omega
          have hrec := ih (xs.filter (fun y => y != x)) hlen' a
          by_cases hax : a = x
          · subst hax
            simp
          · simp only [List.mem_cons, hrec, List.mem_filter, bne_iff_ne]
            constructor
            · rintro (rfl | ⟨h1, _⟩)
              · simp
              · right; exact h1
            · rintro (rfl | h2)
              · left; rfl
              · right; exact ⟨h2, by simpa using hax⟩

theorem dedup_first_append_singleton {α : Type} [DecidableEq α] (l : List α) (k : α) :
    dedup_first (l ++ [k]) =
      if k ∈ l then dedup_first l else dedup_first l ++ [k] := by
  suffices H : ∀ n (l : List α) (k : α), l.length ≤ n →
      dedup_first (l ++ [k]) =
        if k ∈ l then dedup_first l else dedup_first l ++ [k] from
    H l.length l k (le_refl _)
  intro n
  induction n with
  | zero =>
      intro l k hlen
      cases l with
      | nil => simp [dedup_first]
      | cons x xs => simp at hlen
  | succ n ih =>
      intro l k hlen
      cases l with
      | nil => simp [dedup_first]
      | cons x xs =>
          rw [List.cons_append, dedup_first, dedup_first]
          have hfl : (xs ++ [k]).filter (fun y => y != x) =
              xs.filter (fun y => y != x) ++ (if k = x then [] else [k]) := by
            rw [List.filter_append]
            by_cases hkx : k = x
            · subst hkx
              simp
            · have hb : (k != x) = true := by simpa using hkx
              simp [List.filter, hb, hkx]
          have hlen' : (xs.filter (fun y => y != x)).length ≤ n := by
            have := List.length_filter_le (fun y => y != x) xs
            simp only [List.length_cons] at hlen
            omega
          by_cases hkx : k = x
          · subst hkx
            rw [hfl]
            simp
          · rw [hfl]
            simp only [hkx, if_false]
            rw [ih (xs.filter (fun y => y != x)) k hlen']
            by_cases hk : k ∈ xs
            · have hmf : k ∈ xs.filter (fun y => y != x) := by
                rw [List.mem_filter]
                exact ⟨hk, by simpa using hkx⟩
              simp [hmf, hk, List.mem_cons, hkx]
            · have hmf : k ∉ xs.filter (fun y => y != x) := by
                rw [List.mem_filter]
                rintro ⟨h1, _⟩
                exact hk h1
              simp [hmf, hk, List.mem_cons, hkx]

theorem group_step_inv (acc : List (GKey × XElem × Nat)) (ks : List GKey) (it : XElem)
    (h1 : acc.map (fun g => g.1) = dedup_first ks)
    (h2 : ∀ g ∈ acc, g.2.2 = ks.count g.1) :
    (group_step acc it).map (fun g => g.1) = dedup_first (ks ++ [item_key it]) ∧
    (∀ g ∈ group_step acc it, g.2.2 = (ks ++ [item_key it]).count g.1) := by
  have hmemiff : ((acc.find? (fun g => g.1 == item_key it)).isSome = true) ↔
      item_key it ∈ ks := by
    rw [List.find?_isSome]
    constructor
    · rintro ⟨g, hg, hbeq⟩
      have hgk : g.1 = item_key it := by simpa using hbeq
      have hmm : item_key it ∈ acc.map (fun g => g.1) :=
        hgk ▸ List.mem_map.mpr ⟨g, hg, rfl⟩
      rw [h1] at hmm
      exact (mem_dedup_first ks _).mp hmm
    · intro hk
      have hmm : item_key it ∈ acc.map (fun g => g.1) :=
        h1 ▸ (mem_dedup_first ks _).mpr hk
      rcases List.mem_map.mp hmm with ⟨g, hg, hgk⟩
      exact ⟨g, hg, by simp [hgk]⟩
  unfold group_step
  rw [dedup_first_append_singleton]
  by_cases hk : item_key it ∈ ks
  · have hfs : (acc.find? (fun g => g.1 == item_key it)).isSome = true := hmemiff.mpr hk
    simp only [hfs, if_true, hk]
    constructor
    · rw [List.map_map]
      rw [show ((fun g : GKey × XElem × Nat => g.1) ∘
          (fun g : GKey × XElem × Nat =>
            if g.1 == item_key it then (g.1, g.2.1, g.2.2 + 1) else g)) =
          (fun g : GKey × XElem × Nat => g.1) from ?_]
      · exact h1
      · funext g
        by_cases hb : (g.1 == item_key it) = true
        · simp [Function.comp, hb]
        · simp only [Function.comp]
          rw [if_neg (by simpa using hb)]
    · intro g' hg'
      rcases List.mem_map.mp hg' with ⟨g, hg, rfl⟩
      by_cases hb : (g.1 == item_key it) = true
      · have hgk : g.1 = item_key it := by simpa using hb
        simp only [hb, if_true]
        rw [List.count_append, h2 g hg]
        simp [hgk]
      · rw [if_neg (by simpa using hb)]
        have hne : g.1 ≠ item_key it := by simpa using hb
        rw [List.count_append, h2 g hg]
        have : List.count g.1 [item_key it] = 0 := by
          simp [List.count_cons]
          exact fun h => absurd h.symm hne
        omega
  · have hfs : (acc.find? (fun g => g.1 == item_key it)).isSome = false := by
      rw [Bool.eq_false_iff]
      intro hc
      exact hk (hmemiff.mp hc)
    simp only [hfs, Bool.false_eq_true, if_false, hk]
    constructor
    · rw [List.map_append, h1]
      rfl
    · intro g' hg'
      rcases List.mem_append.mp hg' with hgold | hgnew
      · have hmem1 : g'.1 ∈ ks := by
          have : g'.1 ∈ acc.map (fun g => g.1) := List.mem_map.mpr ⟨g', hgold, rfl⟩
          rw [h1] at this
          exact (mem_dedup_first ks _).mp this
        have hne : g'.1 ≠ item_key it := fun h => hk (h ▸ hmem1)
        rw [List.count_append, h2 g' hgold]
        have : List.count g'.1 [item_key it] = 0 := by
          simp [List.count_cons]
          exact fun h => absurd h.symm hne
        omega
      · have : g' = (item_key it, it, 1) := by simpa using hgnew
        subst this
        rw [List.count_append]
        have hz : List.count (item_key it) ks = 0 := List.count_eq_zero.mpr hk
        simp [hz, List.count_cons]

theorem group_items_inv (items : List XElem) :
    (group_items items).map (fun g => g.1) = dedup_first (items.map item_key) ∧
    (∀ g ∈ group_items items, g.2.2 = (items.map item_key).count g.1) := by
  suffices H : ∀ (l : List XElem) (acc : List (GKey × XElem × Nat)) (ks : List GKey),
      acc.map (fun g => g.1) = dedup_first ks →
      (∀ g ∈ acc, g.2.2 = ks.count g.1) →
      (l.foldl group_step acc).map (fun g => g.1) = dedup_first (ks ++ l.map item_key) ∧
      (∀ g ∈ l.foldl group_step acc, g.2.2 = (ks ++ l.map item_key).count g.1) by
    have := H items [] [] (by simp [dedup_first]) (by simp)
    simpa using this
  intro l
  induction l with
  | nil =>
      intro acc ks h1 h2
      refine ⟨by simpa using h1, ?_⟩
      intro g hg
      simpa using h2 g (by simpa using hg)
  | cons it rest ih =>
      intro acc ks h1 h2
      have hstep := group_step_inv acc ks it h1 h2
      have := ih (group_step acc it) (ks ++ [item_key it]) hstep.1 hstep.2
      simpa [List.append_assoc] using this

/-- The specification-side rendering rule (amended, denotational): `p` is
the binary64 value nearest the exact percentage `100*cnt/total`; it is
rendered as the nearest whole percent exactly when `p` lies within the
double literal `0.05` of its nearest integer — the distance measured
exactly, since the float subtraction the code performs is errorless at
these magnitudes — and with one decimal digit (half-even) of `p`
otherwise. -/
def spec_p_str (cnt total : Nat) : String :=
  let p : ℚ := fl (((100 * cnt : ℕ) : ℚ) / (total : ℚ))
  if |p - (round_half_even_of p : ℚ)| < fl (1/20) then
    toString (round_half_even_of p).toNat ++ "%"
  else
    let n1 := (round_half_even_of (10 * p)).toNat
    toString (n1 / 10) ++ "." ++ toString (n1 % 10) ++ "%"

/-- The claim's rendering rule read literally: whole percent, "unless
within 0.05 of the nearest integer, in which case one decimal digit is
shown" — i.e. the branches of `spec_p_str` swapped. -/
def claim_p_str_literal (cnt total : Nat) : String :=
  let p : ℚ := ((100 * cnt : ℕ) : ℚ) / (total : ℚ)
  if |p - round p| < 1/20 then
    let n1 := (round_half_even_of (10 * p)).toNat
    toString (n1 / 10) ++ "." ++ toString (n1 % 10) ++ "%"
  else toString (round p).toNat ++ "%"

theorem floor_nat_div_q (a T : Nat) :
    ⌊((a : ℚ)) / (T : ℚ)⌋ = ((a / T : ℕ) : ℤ) := by
  rw [Rat.floor_natCast_div_natCast]
  rfl

theorem round_nat_div_q (N T : Nat) (hT : 0 < T) :
    round (((N : ℚ)) / (T : ℚ)) = (((2 * N + T) / (2 * T) : ℕ) : ℤ) := by
  rw [round_eq]
  have hT' : (T : ℚ) ≠ 0 := by
    exact_mod_cast hT.ne'
  have hkey : ((N : ℚ)) / (T : ℚ) + 1 / 2 =
      ((2 * N + T : ℕ) : ℚ) / ((2 * T : ℕ) : ℚ) := by
    push_cast
    field_simp
    ring
  rw [hkey, Rat.floor_natCast_div_natCast]
  rfl

theorem cond_iff_int (N M T : Nat) :
    (|(N : ℤ) - (M : ℤ)| * 20 < (T : ℤ)) ↔
      (20 * N < 20 * M + T ∧ 20 * M < 20 * N + T) := by
  rw [Int.abs_eq_natAbs]
  omega

theorem cond_iff_nat (N T : Nat) (hT : 0 < T) :
    (|((N : ℚ)) / (T : ℚ) - round (((N : ℚ)) / (T : ℚ))| < 1/20) ↔
      (20 * N < 20 * ((2 * N + T) / (2 * T)) * T + T ∧
       20 * ((2 * N + T) / (2 * T)) * T < 20 * N + T) := by
  rw [round_nat_div_q N T hT]
  set rp : ℕ := (2 * N + T) / (2 * T) with hrp
  have hT' : (0 : ℚ) < (T : ℚ) := by exact_mod_cast hT
  have key : ((N : ℚ)) / (T : ℚ) - (((rp : ℕ) : ℤ) : ℚ) =
      (((N : ℤ) - ((rp * T : ℕ) : ℤ) : ℤ) : ℚ) / (T : ℚ) := by
    push_cast
    field_simp
    ring
  rw [key, abs_div, abs_of_pos hT',
    div_lt_div_iff₀ hT' (by norm_num : (0 : ℚ) < 20), ← Int.cast_abs, one_mul]
  have hcast : ((|(N : ℤ) - ((rp * T : ℕ) : ℤ)| : ℤ) : ℚ) * 20 < (T : ℚ) ↔
      |(N : ℤ) - ((rp * T : ℕ) : ℤ)| * 20 < (T : ℤ) := by
    constructor
    · intro h
      exact_mod_cast h
    · intro h
      exact_mod_cast h
  rw [hcast]
  rw [show 20 * rp * T = 20 * (rp * T) from by ring]
  exact cond_iff_int N (rp * T) T

theorem fract_half_iff (a T : Nat) (hT : 0 < T) :
    Int.fract ((a : ℚ) / (T : ℚ)) = 1/2 ↔ 2 * (a % T) = T := by
  rw [Int.fract_div_natCast_eq_div_natCast_mod]
  have hT' : (0 : ℚ) < (T : ℚ) := by exact_mod_cast hT
  rw [div_eq_div_iff hT'.ne' (by norm_num : (2 : ℚ) ≠ 0), one_mul]
  constructor
  · intro h
    have : (a % T) * 2 = T := by exact_mod_cast h
    omega
  · intro h
    have h2 : (a % T) * 2 = T := by omega
    exact_mod_cast h2

theorem dvd_two_natCast (k : Nat) : (2 ∣ ((k : ℕ) : ℤ)) ↔ k % 2 = 0 := by
  omega

theorem div_round_cases_qr (q r T : Nat) (hT : 0 < T) (hr : r < T) :
    (2 * (T * q + r) + T) / (2 * T) = if 2 * r < T then q else q + 1 := by
  have h1 : 2 * (T * q + r) + T = (2 * r + T) + (2 * T) * q := by ring
  rw [h1, Nat.add_mul_div_left _ _ (by omega : 0 < 2 * T)]
  by_cases h : 2 * r < T
  · rw [Nat.div_eq_of_lt (by omega), if_pos h]
    omega
  · rw [if_neg h]
    have h2 : (2 * r + T) / (2 * T) = 1 := Nat.div_eq_of_lt_le (by omega) (by omega)
    omega

theorem div_round_cases (A T : Nat) (hT : 0 < T) (_hne : 2 * (A % T) ≠ T) :
    (2 * A + T) / (2 * T) = if 2 * (A % T) < T then A / T else A / T + 1 := by
  have h := div_round_cases_qr (A / T) (A % T) T hT (Nat.mod_lt _ hT)
  rwa [Nat.div_add_mod] at h

theorem rhe_nat_div (A T : Nat) (hT : 0 < T) :
    round_half_even_of ((A : ℚ) / (T : ℚ)) =
      (((if 2 * (A % T) = T then (if (A / T) % 2 = 0 then A / T else A / T + 1)
         else if 2 * (A % T) < T then A / T else A / T + 1) : ℕ) : ℤ) := by
  unfold round_half_even_of
  by_cases h : 2 * (A % T) = T
  · rw [if_pos ((fract_half_iff A T hT).mpr h), floor_nat_div_q, if_pos h]
    by_cases he : (A / T) % 2 = 0
    · rw [if_pos ((dvd_two_natCast _).mpr he), if_pos he]
    · rw [if_neg (fun hc => he ((dvd_two_natCast _).mp hc)), if_neg he]
      omega
  · rw [if_neg (fun hc => h ((fract_half_iff A T hT).mp hc)), if_neg h,
      round_nat_div_q A T hT, div_round_cases A T hT h]

theorem nlog2_spec : ∀ (fuel n : Nat), 1 ≤ n → n ≤ fuel →
    2 ^ nlog2 fuel n ≤ n ∧ n < 2 ^ (nlog2 fuel n + 1) := by
  intro fuel
  induction fuel with
  | zero =>
      intro n h1 h2
      omega
  | succ fuel ih =>
      intro n h1 h2
      by_cases hn : n ≤ 1
      · have hn1 : n = 1 := by omega
        subst hn1
        simp [nlog2]
      · simp only [nlog2, if_neg hn]
        have h1' : 1 ≤ n / 2 := by omega
        have h2' : n / 2 ≤ fuel := by omega
        obtain ⟨ha, hb⟩ := ih (n / 2) h1' h2'
        have e1 : 2 ^ (nlog2 fuel (n / 2) + 1) = 2 ^ nlog2 fuel (n / 2) * 2 :=
          pow_succ 2 _
        have e2 : 2 ^ (nlog2 fuel (n / 2) + 1 + 1) =
            2 ^ (nlog2 fuel (n / 2) + 1) * 2 := pow_succ 2 _
        omega

theorem ilog2_spec (q : ℚ) (hq : 0 < q) :
    (2 : ℚ) ^ ilog2 q ≤ q ∧ q < (2 : ℚ) ^ (ilog2 q + 1) := by
  unfold ilog2
  simp only []
  have hnum : 0 < q.num := Rat.num_pos.mpr hq
  have hna1 : 1 ≤ q.num.natAbs := by omega
  have hd1 : 1 ≤ q.den := q.den_pos
  obtain ⟨hla, hlb⟩ := nlog2_spec q.num.natAbs q.num.natAbs hna1 (le_refl _)
  obtain ⟨hda, hdb⟩ := nlog2_spec q.den q.den hd1 (le_refl _)
  set la := nlog2 q.num.natAbs q.num.natAbs with hla_def
  set lb := nlog2 q.den q.den with hlb_def
  have hq_eq : q = (q.num.natAbs : ℚ) / (q.den : ℚ) := by
    have h1 : ((q.num.natAbs : ℤ) : ℚ) = (q.num : ℚ) := by
      exact_mod_cast congrArg (fun z : ℤ => (z : ℚ)) (Int.natAbs_of_nonneg hnum.le)
    rw [show ((q.num.natAbs : ℕ) : ℚ) = ((q.num.natAbs : ℤ) : ℚ) from
      (Int.cast_natCast _).symm, h1, Rat.num_div_den]
  have hd0 : (0 : ℚ) < (q.den : ℚ) := by exact_mod_cast hd1
  have Hna1 : (2 : ℚ) ^ (la : ℕ) ≤ (q.num.natAbs : ℚ) := by exact_mod_cast hla
  have Hna2 : ((q.num.natAbs : ℕ) : ℚ) < (2 : ℚ) ^ (la + 1 : ℕ) := by exact_mod_cast hlb
  have Hd1 : (2 : ℚ) ^ (lb : ℕ) ≤ (q.den : ℚ) := by exact_mod_cast hda
  have Hd2 : ((q.den : ℕ) : ℚ) < (2 : ℚ) ^ (lb + 1 : ℕ) := by exact_mod_cast hdb
  have Hlow : (2 : ℚ) ^ ((la : ℤ) - lb - 1) < q := by
    rw [hq_eq, lt_div_iff₀ hd0]
    calc (2 : ℚ) ^ ((la : ℤ) - lb - 1) * (q.den : ℚ)
        < 2 ^ ((la : ℤ) - lb - 1) * 2 ^ (lb + 1 : ℕ) := by
          exact mul_lt_mul_of_pos_left Hd2 (zpow_pos (by norm_num) _)
      _ = 2 ^ ((la : ℤ)) := by
          rw [← zpow_natCast (2 : ℚ) (lb + 1), ← zpow_add₀ (by norm_num : (2:ℚ) ≠ 0)]
          congr 1
          push_cast
          ring
      _ ≤ (q.num.natAbs : ℚ) := by
          rw [zpow_natCast]
          exact Hna1
  have Hhigh : q < (2 : ℚ) ^ ((la : ℤ) - lb + 1) := by
    rw [hq_eq, div_lt_iff₀ hd0]
    calc ((q.num.natAbs : ℕ) : ℚ) < 2 ^ (la + 1 : ℕ) := Hna2
      _ = 2 ^ ((la : ℤ) - lb + 1) * 2 ^ (lb : ℕ) := by
          rw [← zpow_natCast (2 : ℚ) (la + 1), ← zpow_natCast (2 : ℚ) lb,
            ← zpow_add₀ (by norm_num : (2:ℚ) ≠ 0)]
          congr 1
          push_cast
          ring
      _ ≤ 2 ^ ((la : ℤ) - lb + 1) * (q.den : ℚ) := by
          exact mul_le_mul_of_nonneg_left Hd1 (zpow_nonneg (by norm_num) _)
  by_cases hcase : q < 2 ^ ((la : ℤ) - lb)
  · rw [if_pos hcase]
    refine ⟨Hlow.le, ?_⟩
    rw [show (la : ℤ) - lb - 1 + 1 = (la : ℤ) - lb from by ring]
    exact hcase
  · rw [if_neg hcase]
    exact ⟨not_lt.mp hcase, Hhigh⟩

theorem ilog2_unique (q : ℚ) (hq : 0 < q) (k : ℤ)
    (h1 : (2 : ℚ) ^ k ≤ q) (h2 : q < (2 : ℚ) ^ (k + 1)) : ilog2 q = k := by
  obtain ⟨ha, hb⟩ := ilog2_spec q hq
  by_contra hne
  rcases lt_or_gt_of_ne hne with hlt | hgt
  · have : (2 : ℚ) ^ (ilog2 q + 1) ≤ 2 ^ k := by
      apply zpow_le_zpow_right₀ (by norm_num : (1 : ℚ) ≤ 2)
      omega
    linarith
  · have : (2 : ℚ) ^ (k + 1) ≤ 2 ^ (ilog2 q) := by
      apply zpow_le_zpow_right₀ (by norm_num : (1 : ℚ) ≤ 2)
      omega
    linarith

theorem rhe_intCast (k : ℤ) : round_half_even_of ((k : ℤ) : ℚ) = k := by
  unfold round_half_even_of
  rw [Int.fract_intCast, if_neg (by norm_num), round_intCast]

theorem rhe_sub_le (q : ℚ) : |q - (round_half_even_of q : ℚ)| ≤ 1/2 := by
  unfold round_half_even_of
  by_cases hf : Int.fract q = 1/2
  · have hfl : q - (⌊q⌋ : ℚ) = 1/2 := hf
    rw [if_pos hf]
    by_cases he : 2 ∣ ⌊q⌋
    · rw [if_pos he, hfl]
      rw [abs_of_pos (by norm_num)]
    · rw [if_neg he]
      push_cast
      rw [abs_le]
      constructor <;> linarith
  · rw [if_neg hf]
    exact abs_sub_round q

theorem rhe_nonneg_of (q : ℚ) (hq : 0 < q) : 0 ≤ round_half_even_of q := by
  have h := (abs_le.mp (rhe_sub_le q)).2
  by_contra hneg
  push_neg at hneg
  have h1 : round_half_even_of q ≤ -1 := by omega
  have h2 : ((round_half_even_of q : ℤ) : ℚ) ≤ -1 := by exact_mod_cast h1
  linarith

theorem flPos_eq_of (q : ℚ) (hq : 0 < q) (k : ℤ)
    (h1 : (2 : ℚ) ^ k ≤ q) (h2 : q < (2 : ℚ) ^ (k + 1)) :
    flPos q = (round_half_even_of (q * 2 ^ ((52 : ℤ) - k)) : ℚ) * 2 ^ (k - 52) := by
  unfold flPos
  rw [ilog2_unique q hq k h1 h2,
    show q / (2 : ℚ) ^ (k - 52) = q * 2 ^ ((52 : ℤ) - k) from by
      rw [div_eq_mul_inv, ← zpow_neg, show -(k - 52) = (52 : ℤ) - k from by ring]]

theorem fl_eq_of (q : ℚ) (hq : 0 < q) (k : ℤ)
    (h1 : (2 : ℚ) ^ k ≤ q) (h2 : q < (2 : ℚ) ^ (k + 1)) :
    fl q = (round_half_even_of (q * 2 ^ ((52 : ℤ) - k)) : ℚ) * 2 ^ (k - 52) := by
  unfold fl
  rw [if_pos hq, flPos_eq_of q hq k h1 h2]

theorem fl_natDiv_eq (a b : ℕ) (ha : 0 < a) (hb : 0 < b) (k : ℤ) (j : ℕ)
    (hj : (j : ℤ) = 52 - k)
    (h1 : (2 : ℚ) ^ k ≤ (a : ℚ) / (b : ℚ)) (h2 : (a : ℚ) / (b : ℚ) < (2 : ℚ) ^ (k + 1)) :
    fl ((a : ℚ) / (b : ℚ)) =
      ((round_half_even_of (((a * 2 ^ j : ℕ) : ℚ) / ((b : ℕ) : ℚ)) : ℤ) : ℚ) / 2 ^ j := by
  have hq : (0 : ℚ) < (a : ℚ) / (b : ℚ) :=
    div_pos (by exact_mod_cast ha) (by exact_mod_cast hb)
  rw [fl_eq_of _ hq k h1 h2]
  have harg : ((a : ℚ) / (b : ℚ)) * 2 ^ ((52 : ℤ) - k) =
      ((a * 2 ^ j : ℕ) : ℚ) / ((b : ℕ) : ℚ) := by
    rw [← hj, zpow_natCast]
    push_cast
    ring
  rw [harg, show k - 52 = -(j : ℤ) from by omega, zpow_neg, zpow_natCast]
  ring

theorem flPos_dyadic (M : ℤ) (E : ℤ) (h0 : 0 < M) (h53 : M ≤ 2 ^ 53) :
    flPos ((M : ℚ) * 2 ^ E) = (M : ℚ) * 2 ^ E := by
  have hq : 0 < (M : ℚ) * 2 ^ E :=
    mul_pos (by exact_mod_cast h0) (zpow_pos (by norm_num) E)
  have hmn1 : 1 ≤ M.toNat := by omega
  obtain ⟨hma, hmb⟩ := nlog2_spec M.toNat M.toNat hmn1 (le_refl _)
  set lm := nlog2 M.toNat M.toNat with hlm
  have hMQ : ((M.toNat : ℕ) : ℚ) = (M : ℚ) := by
    exact_mod_cast congrArg (fun z : ℤ => (z : ℚ)) (Int.toNat_of_nonneg h0.le)
  have hbr1 : (2 : ℚ) ^ (E + (lm : ℤ)) ≤ (M : ℚ) * 2 ^ E := by
    rw [zpow_add₀ (by norm_num : (2:ℚ) ≠ 0), mul_comm ((2:ℚ) ^ E)]
    apply mul_le_mul_of_nonneg_right _ (zpow_nonneg (by norm_num) E)
    rw [show ((2:ℚ) ^ (lm : ℤ)) = (2:ℚ) ^ (lm : ℕ) from zpow_natCast 2 lm, ← hMQ]
    exact_mod_cast hma
  have hbr2 : (M : ℚ) * 2 ^ E < (2 : ℚ) ^ (E + (lm : ℤ) + 1) := by
    rw [show E + (lm : ℤ) + 1 = E + ((lm + 1 : ℕ) : ℤ) from by push_cast; ring,
      zpow_add₀ (by norm_num : (2:ℚ) ≠ 0), mul_comm ((2:ℚ) ^ E)]
    apply mul_lt_mul_of_pos_right _ (zpow_pos (by norm_num) E)
    rw [show ((2:ℚ) ^ ((lm + 1 : ℕ) : ℤ)) = (2:ℚ) ^ (lm + 1 : ℕ) from zpow_natCast 2 _,
      ← hMQ]
    exact_mod_cast hmb
  rw [show flPos ((M : ℚ) * 2 ^ E) = fl ((M : ℚ) * 2 ^ E) from by
      unfold fl; rw [if_pos hq],
    fl_eq_of _ hq (E + lm) hbr1 hbr2]
  have hlm53 : lm ≤ 53 := by
    have hmn53 : M.toNat ≤ 2 ^ 53 := by omega
    have hle : (2:ℕ) ^ lm ≤ 2 ^ 53 := le_trans hma hmn53
    exact (Nat.pow_le_pow_iff_right (by norm_num)).mp hle
  by_cases hlm52 : lm ≤ 52
  · have harg : (M : ℚ) * 2 ^ E * 2 ^ ((52 : ℤ) - (E + lm)) =
        ((M * 2 ^ (52 - lm) : ℤ) : ℚ) := by
      push_cast
      rw [mul_assoc, ← zpow_add₀ (by norm_num : (2:ℚ) ≠ 0),
        show E + ((52 : ℤ) - (E + lm)) = ((52 - lm : ℕ) : ℤ) from by omega,
        zpow_natCast]
    rw [harg, rhe_intCast]
    push_cast
    rw [mul_assoc, ← zpow_natCast (2:ℚ) (52 - lm), ← zpow_add₀ (by norm_num : (2:ℚ) ≠ 0)]
    congr 1
    congr 1
    omega
  · have hlm' : lm = 53 := by omega
    have hMv : (M : ℚ) = (2:ℚ) ^ ((53:ℤ)) := by
      have hM53 : M = 2 ^ 53 := by
        have h1' : (2:ℕ) ^ 53 ≤ M.toNat := by
          rw [← hlm']
          exact hma
        omega
      rw [hM53, show ((2:ℚ)) ^ ((53:ℤ)) = (2:ℚ) ^ (53:ℕ) from zpow_natCast 2 53]
      push_cast
      ring
    rw [hlm', hMv, mul_assoc, ← zpow_add₀ (by norm_num : (2:ℚ) ≠ 0),
      ← zpow_add₀ (by norm_num : (2:ℚ) ≠ 0),
      show (53:ℤ) + (E + ((52:ℤ) - (E + ((53:ℕ) : ℤ)))) = (52:ℤ) from by omega,
      show ((2:ℚ) ^ ((52:ℤ))) = (((2 ^ 52 : ℤ)) : ℚ) from by
        rw [show ((2:ℚ)) ^ ((52:ℤ)) = (2:ℚ) ^ (52:ℕ) from zpow_natCast 2 52]
        push_cast
        ring,
      rhe_intCast,
      show (((2 ^ 52 : ℤ)) : ℚ) = ((2:ℚ)) ^ ((52:ℤ)) from by
        rw [show ((2:ℚ)) ^ ((52:ℤ)) = (2:ℚ) ^ (52:ℕ) from zpow_natCast 2 52]
        push_cast
        ring,
      ← zpow_add₀ (by norm_num : (2:ℚ) ≠ 0), ← zpow_add₀ (by norm_num : (2:ℚ) ≠ 0)]
    congr 1
    omega

theorem fl_dyadic (M : ℤ) (E : ℤ) (h : |M| ≤ 2 ^ 53) :
    fl ((M : ℚ) * 2 ^ E) = (M : ℚ) * 2 ^ E := by
  rcases lt_trichotomy M 0 with hneg | hzero | hpos
  · unfold fl
    have hq : (M : ℚ) * 2 ^ E < 0 :=
      mul_neg_of_neg_of_pos (by exact_mod_cast hneg) (zpow_pos (by norm_num) E)
    rw [if_neg (by linarith), if_pos hq,
      show -((M : ℚ) * 2 ^ E) = ((-M : ℤ) : ℚ) * 2 ^ E from by push_cast; ring,
      flPos_dyadic (-M) E (by omega) (by
        have := le_abs_self (-M)
        rw [abs_neg] at this
        omega)]
    push_cast
    ring
  · subst hzero
    simp [fl]
  · unfold fl
    have hq : 0 < (M : ℚ) * 2 ^ E :=
      mul_pos (by exact_mod_cast hpos) (zpow_pos (by norm_num) E)
    rw [if_pos hq]
    exact flPos_dyadic M E hpos (by
      have := le_abs_self M
      omega)

theorem fl_intCast (k : ℤ) (h : |k| ≤ 2 ^ 53) : fl ((k : ℤ) : ℚ) = ((k : ℤ) : ℚ) := by
  have h2 := fl_dyadic k 0 h
  simpa using h2

theorem fl_natCast (n : ℕ) (h : n ≤ 2 ^ 53) : fl ((n : ℕ) : ℚ) = ((n : ℕ) : ℚ) := by
  have h' : |(n : ℤ)| ≤ 2 ^ 53 := by
    rw [show |(n : ℤ)| = (n : ℤ) from abs_of_nonneg (by positivity)]
    exact_mod_cast h
  have h2 := fl_intCast n h'
  push_cast at h2
  exact h2

theorem fl_natDiv_self (K : ℤ) (j : ℕ) (h : |K| ≤ 2 ^ 53) :
    fl ((K : ℚ) / 2 ^ j) = (K : ℚ) / 2 ^ j := by
  have h2 := fl_dyadic K (-(j : ℤ)) h
  rw [zpow_neg, zpow_natCast, ← div_eq_mul_inv] at h2
  exact h2

theorem dyadic_abs_lt_iff (A B : ℤ) (a b : ℕ) :
    (|(A : ℚ) / 2 ^ a| < (B : ℚ) / 2 ^ b) ↔ |A| * 2 ^ b < B * 2 ^ a := by
  rw [abs_div, abs_of_pos (by positivity : (0:ℚ) < 2 ^ a),
    div_lt_div_iff₀ (by positivity) (by positivity), ← Int.cast_abs]
  constructor
  · intro h
    exact_mod_cast h
  · intro h
    exact_mod_cast h

theorem ilog2_le_of_lt (q : ℚ) (hq : 0 < q) (k : ℤ)
    (h : q < (2 : ℚ) ^ (k + 1)) : ilog2 q ≤ k := by
  by_contra hc
  push_neg at hc
  have h1 := (ilog2_spec q hq).1
  have h2 : (2 : ℚ) ^ (k + 1) ≤ 2 ^ ilog2 q :=
    zpow_le_zpow_right₀ (by norm_num) (by omega)
  linarith

theorem fl_shape (q : ℚ) (hq : 0 < q) :
    ∃ M : ℤ, 2 ^ 52 ≤ M ∧ M ≤ 2 ^ 53 ∧ fl q = (M : ℚ) * 2 ^ (ilog2 q - 52) ∧
      |(M : ℚ) - q * 2 ^ ((52 : ℤ) - ilog2 q)| ≤ 1/2 := by
  obtain ⟨ha, hb⟩ := ilog2_spec q hq
  have hx2pos : (0 : ℚ) < 2 ^ ((52 : ℤ) - ilog2 q) := zpow_pos (by norm_num) _
  have hx1 : (2 : ℚ) ^ ((52 : ℤ)) ≤ q * 2 ^ ((52 : ℤ) - ilog2 q) := by
    calc (2 : ℚ) ^ ((52 : ℤ)) = 2 ^ ilog2 q * 2 ^ ((52 : ℤ) - ilog2 q) := by
          rw [← zpow_add₀ (by norm_num : (2:ℚ) ≠ 0)]
          congr 1
          ring
      _ ≤ q * 2 ^ ((52 : ℤ) - ilog2 q) := mul_le_mul_of_nonneg_right ha hx2pos.le
  have hx2 : q * 2 ^ ((52 : ℤ) - ilog2 q) < (2 : ℚ) ^ ((53 : ℤ)) := by
    calc q * 2 ^ ((52 : ℤ) - ilog2 q) < 2 ^ (ilog2 q + 1) * 2 ^ ((52 : ℤ) - ilog2 q) :=
          mul_lt_mul_of_pos_right hb hx2pos
      _ = (2 : ℚ) ^ ((53 : ℤ)) := by
          rw [← zpow_add₀ (by norm_num : (2:ℚ) ≠ 0)]
          congr 1
          ring
  have hclose := rhe_sub_le (q * 2 ^ ((52 : ℤ) - ilog2 q))
  have hz52 : ((2:ℚ)) ^ ((52:ℤ)) = ((2 ^ 52 : ℤ) : ℚ) := by
    rw [show ((2:ℚ)) ^ ((52:ℤ)) = (2:ℚ) ^ (52:ℕ) from zpow_natCast 2 52]
    push_cast
    ring
  have hz53 : ((2:ℚ)) ^ ((53:ℤ)) = ((2 ^ 53 : ℤ) : ℚ) := by
    rw [show ((2:ℚ)) ^ ((53:ℤ)) = (2:ℚ) ^ (53:ℕ) from zpow_natCast 2 53]
    push_cast
    ring
  refine ⟨round_half_even_of (q * 2 ^ ((52 : ℤ) - ilog2 q)), ?_, ?_, ?_, ?_⟩
  · have h1 : ((2 ^ 52 - 1 : ℤ) : ℚ) <
        (round_half_even_of (q * 2 ^ ((52 : ℤ) - ilog2 q)) : ℚ) := by
      have h2 := (abs_le.mp hclose).2
      rw [hz52] at hx1
      push_cast at hx1 ⊢
      linarith
    have h3 : (2 ^ 52 - 1 : ℤ) < round_half_even_of (q * 2 ^ ((52 : ℤ) - ilog2 q)) := by
      exact_mod_cast h1
    omega
  · have h1 : (round_half_even_of (q * 2 ^ ((52 : ℤ) - ilog2 q)) : ℚ) <
        ((2 ^ 53 + 1 : ℤ) : ℚ) := by
      have h2 := (abs_le.mp hclose).1
      rw [hz53] at hx2
      push_cast at hx2 ⊢
      linarith
    have h3 : round_half_even_of (q * 2 ^ ((52 : ℤ) - ilog2 q)) < 2 ^ 53 + 1 := by
      exact_mod_cast h1
    omega
  · exact fl_eq_of q hq (ilog2 q) ha hb
  · rw [abs_sub_comm]
    exact hclose

theorem fl_sub_nearest (q : ℚ) (hq : 0 < q) (hel : ilog2 q ≤ 52) :
    fl (fl q - (round_half_even_of (fl q) : ℚ)) =
      fl q - (round_half_even_of (fl q) : ℚ) := by
  obtain ⟨M, hM1, hM2, hfleq, hMx⟩ := fl_shape q hq
  have hz53 : ((2:ℚ)) ^ ((53:ℤ)) = ((2 ^ 53 : ℤ) : ℚ) := by
    rw [show ((2:ℚ)) ^ ((53:ℤ)) = (2:ℚ) ^ (53:ℕ) from zpow_natCast 2 53]
    push_cast
    ring
  have hppos : 0 < fl q := by
    rw [hfleq]
    exact mul_pos (by exact_mod_cast lt_of_lt_of_le (by norm_num) hM1)
      (zpow_pos (by norm_num) _)
  have hrp0 : 0 ≤ round_half_even_of (fl q) := rhe_nonneg_of _ hppos
  have hclose := rhe_sub_le (fl q)
  rcases eq_or_lt_of_le hrp0 with hrpz | hrppos
  · rw [← hrpz, Int.cast_zero, sub_zero, hfleq]
    exact fl_dyadic M (ilog2 q - 52) (by
      rw [abs_of_nonneg (by omega : (0:ℤ) ≤ M)]
      exact hM2)
  · have hp12 : (1:ℚ)/2 ≤ fl q := by
      have h1' : (1:ℚ) ≤ (round_half_even_of (fl q) : ℚ) := by exact_mod_cast hrppos
      have h2' := (abs_le.mp hclose).1
      linarith
    have hE54 : -54 ≤ ilog2 q - 52 := by
      by_contra hc
      push_neg at hc
      have hps : fl q ≤ (2:ℚ) ^ ((53:ℤ)) * 2 ^ ((-55:ℤ)) := by
        rw [hfleq]
        apply mul_le_mul _ (zpow_le_zpow_right₀ (by norm_num) (by omega))
          (zpow_nonneg (by norm_num) _) (zpow_nonneg (by norm_num) _)
        rw [hz53]
        exact_mod_cast hM2
      have he : (2:ℚ) ^ ((53:ℤ)) * 2 ^ ((-55:ℤ)) = 2 ^ ((-2:ℤ)) := by
        rw [← zpow_add₀ (by norm_num : (2:ℚ) ≠ 0)]
        norm_num
      have he2 : (2:ℚ) ^ ((-2:ℤ)) = 1/4 := by norm_num
      rw [he, he2] at hps
      linarith
    set rp := round_half_even_of (fl q) with hrp
    set K : ℤ := M - rp * 2 ^ ((52 - ilog2 q).toNat) with hK
    have h52el : (((52 - ilog2 q).toNat : ℕ) : ℤ) = 52 - ilog2 q :=
      Int.toNat_of_nonneg (by omega)
    have hKval : fl q - (rp : ℚ) = (K : ℚ) * 2 ^ (ilog2 q - 52) := by
      rw [hfleq, hK]
      push_cast
      rw [sub_mul]
      congr 1
      rw [mul_assoc, ← zpow_natCast (2:ℚ) ((52 - ilog2 q).toNat), h52el,
        ← zpow_add₀ (by norm_num : (2:ℚ) ≠ 0),
        show 52 - ilog2 q + (ilog2 q - 52) = 0 from by ring, zpow_zero, mul_one]
    have hKabs : |K| ≤ 2 ^ 53 := by
      have habs : |(K:ℚ)| * 2 ^ (ilog2 q - 52) = |fl q - (rp : ℚ)| := by
        rw [hKval, abs_mul, abs_of_pos (zpow_pos (by norm_num : (0:ℚ) < 2) _)]
      have h12 : |(K:ℚ)| * 2 ^ (ilog2 q - 52) ≤ 1/2 := by
        rw [habs]
        exact hclose
      have hKq : |(K:ℚ)| ≤ 2 ^ ((52:ℤ) - ilog2 q) * (1/2) := by
        calc |(K:ℚ)| = |(K:ℚ)| * 2 ^ (ilog2 q - 52) * 2 ^ ((52:ℤ) - ilog2 q) := by
              rw [mul_assoc, ← zpow_add₀ (by norm_num : (2:ℚ) ≠ 0),
                show ilog2 q - 52 + ((52:ℤ) - ilog2 q) = 0 from by ring,
                zpow_zero, mul_one]
          _ ≤ (1/2) * 2 ^ ((52:ℤ) - ilog2 q) :=
              mul_le_mul_of_nonneg_right h12 (zpow_nonneg (by norm_num) _)
          _ = 2 ^ ((52:ℤ) - ilog2 q) * (1/2) := by ring
      have h53 : (2:ℚ) ^ ((52:ℤ) - ilog2 q) * (1/2) ≤ 2 ^ ((53:ℤ)) := by
        rw [show (1:ℚ)/2 = 2 ^ ((-1:ℤ)) from by norm_num,
          ← zpow_add₀ (by norm_num : (2:ℚ) ≠ 0)]
        exact zpow_le_zpow_right₀ (by norm_num) (by omega)
      have hfin : |(K:ℚ)| ≤ (2:ℚ) ^ ((53:ℤ)) := le_trans hKq h53
      rw [hz53, ← Int.cast_abs] at hfin
      exact_mod_cast hfin
    rw [hKval]
    exact fl_dyadic K (ilog2 q - 52) hKabs

/-- The operational rendering (`p_str`, every float step rounded) agrees
with the denotational rule (`spec_p_str`): the int-to-float conversions and
the multiplication by 100 are exact for realistic list sizes, and the float
subtraction `p - round(p)` is errorless (its value is representable). -/
theorem p_str_eq_spec (cnt total : Nat) (h1 : 1 ≤ cnt) (h2 : cnt ≤ total)
    (h3 : total ≤ 2 ^ 46) : p_str cnt total = spec_p_str cnt total := by
  unfold p_str spec_p_str
  simp only []
  rw [fl_natCast cnt (le_trans (le_trans h2 h3) (by norm_num)),
    show ((cnt : ℕ) : ℚ) * 100 = ((100 * cnt : ℕ) : ℚ) from by push_cast; ring,
    fl_natCast (100 * cnt)
      (le_trans (Nat.mul_le_mul_left 100 (le_trans h2 h3)) (by norm_num)),
    fl_natCast total (le_trans h3 (by norm_num))]
  have htot0 : 0 < total := by omega
  have hq0pos : 0 < ((100 * cnt : ℕ) : ℚ) / ((total : ℕ) : ℚ) := by
    apply div_pos
    · exact_mod_cast (by omega : 0 < 100 * cnt)
    · exact_mod_cast htot0
  have hq0le : ((100 * cnt : ℕ) : ℚ) / ((total : ℕ) : ℚ) ≤ 100 := by
    rw [div_le_iff₀ (by exact_mod_cast htot0)]
    have hnn : (100 * cnt : ℕ) ≤ 100 * total := Nat.mul_le_mul_left 100 h2
    exact_mod_cast hnn
  have hel6 : ilog2 (((100 * cnt : ℕ) : ℚ) / ((total : ℕ) : ℚ)) ≤ 6 := by
    apply ilog2_le_of_lt _ hq0pos 6
    calc ((100 * cnt : ℕ) : ℚ) / ((total : ℕ) : ℚ) ≤ 100 := hq0le
      _ < (2 : ℚ) ^ ((6 : ℤ) + 1) := by norm_num
  obtain ⟨M, hM1, hM2, hfleq, -⟩ :=
    fl_shape (((100 * cnt : ℕ) : ℚ) / ((total : ℕ) : ℚ)) hq0pos
  have hz53 : ((2:ℚ)) ^ ((53:ℤ)) = ((2 ^ 53 : ℤ) : ℚ) := by
    rw [show ((2:ℚ)) ^ ((53:ℤ)) = (2:ℚ) ^ (53:ℕ) from zpow_natCast 2 53]
    push_cast
    ring
  have hppos : 0 < fl (((100 * cnt : ℕ) : ℚ) / ((total : ℕ) : ℚ)) := by
    rw [hfleq]
    exact mul_pos (by exact_mod_cast lt_of_lt_of_le (by norm_num) hM1)
      (zpow_pos (by norm_num) _)
  have hple : fl (((100 * cnt : ℕ) : ℚ) / ((total : ℕ) : ℚ)) ≤ 128 := by
    rw [hfleq]
    calc (M : ℚ) * 2 ^ (ilog2 (((100 * cnt : ℕ) : ℚ) / ((total : ℕ) : ℚ)) - 52)
        ≤ ((2 ^ 53 : ℤ) : ℚ) *
            2 ^ (ilog2 (((100 * cnt : ℕ) : ℚ) / ((total : ℕ) : ℚ)) - 52) :=
          mul_le_mul_of_nonneg_right (by exact_mod_cast hM2)
            (zpow_nonneg (by norm_num) _)
      _ = (2:ℚ) ^ ((53:ℤ) + (ilog2 (((100 * cnt : ℕ) : ℚ) / ((total : ℕ) : ℚ)) - 52)) := by
          rw [← hz53, ← zpow_add₀ (by norm_num : (2:ℚ) ≠ 0)]
      _ ≤ (2:ℚ) ^ ((7:ℤ)) := zpow_le_zpow_right₀ (by norm_num) (by omega)
      _ = 128 := by norm_num
  have hrp0 : 0 ≤ round_half_even_of (fl (((100 * cnt : ℕ) : ℚ) / ((total : ℕ) : ℚ))) :=
    rhe_nonneg_of _ hppos
  have hrpbound :
      |round_half_even_of (fl (((100 * cnt : ℕ) : ℚ) / ((total : ℕ) : ℚ)))| ≤ 2 ^ 53 := by
    rw [abs_of_nonneg hrp0]
    have hup := (abs_le.mp (rhe_sub_le (fl (((100 * cnt : ℕ) : ℚ) / ((total : ℕ) : ℚ))))).1
    have hle129 :
        (round_half_even_of (fl (((100 * cnt : ℕ) : ℚ) / ((total : ℕ) : ℚ))) : ℚ) ≤ 129 := by
      linarith
    have h129 : round_half_even_of (fl (((100 * cnt : ℕ) : ℚ) / ((total : ℕ) : ℚ))) ≤ 129 := by
      exact_mod_cast hle129
    omega
  rw [fl_intCast _ hrpbound, fl_sub_nearest _ hq0pos (le_trans hel6 (by norm_num))]
theorem p_str_eval_two_three : p_str 2 3 = "66.7%" := by
  have hM1 : round_half_even_of (((200 * 2 ^ 46 : ℕ) : ℚ) / ((3 : ℕ) : ℚ)) =
      4691249611844267 := by
    rw [rhe_nat_div _ _ (by norm_num)]
    decide
  have hfl2003 : fl (((200 : ℕ) : ℚ) / ((3 : ℕ) : ℚ)) =
      ((4691249611844267 : ℤ) : ℚ) / 2 ^ 46 := by
    rw [fl_natDiv_eq 200 3 (by norm_num) (by norm_num) 6 46 (by norm_num)
        (by norm_num) (by norm_num), hM1]
  have hrp : round_half_even_of (((4691249611844267 : ℤ) : ℚ) / 2 ^ 46) = 67 := by
    rw [show ((4691249611844267 : ℤ) : ℚ) / 2 ^ 46 =
        ((4691249611844267 : ℕ) : ℚ) / ((2 ^ 46 : ℕ) : ℚ) from by push_cast; norm_num,
      rhe_nat_div _ _ (by norm_num)]
    decide
  have hM20 : round_half_even_of (((1 * 2 ^ 57 : ℕ) : ℚ) / ((20 : ℕ) : ℚ)) =
      7205759403792794 := by
    rw [rhe_nat_div _ _ (by norm_num)]
    decide
  have hfl20 : fl ((1 : ℚ) / 20) = ((7205759403792794 : ℤ) : ℚ) / 2 ^ 57 := by
    rw [show (1 / 20 : ℚ) = ((1 : ℕ) : ℚ) / ((20 : ℕ) : ℚ) from by norm_num,
      fl_natDiv_eq 1 20 (by norm_num) (by norm_num) (-5) 57 (by norm_num)
        (by norm_num) (by norm_num), hM20]
  have hcond : ¬ (|((-23456248059221 : ℤ) : ℚ) / 2 ^ 46| <
      ((7205759403792794 : ℤ) : ℚ) / 2 ^ 57) := by
    rw [dyadic_abs_lt_iff]
    decide
  have hn1 : round_half_even_of (10 * (((4691249611844267 : ℤ) : ℚ) / 2 ^ 46)) = 667 := by
    rw [show 10 * (((4691249611844267 : ℤ) : ℚ) / 2 ^ 46) =
        ((46912496118442670 : ℕ) : ℚ) / ((2 ^ 46 : ℕ) : ℚ) from by push_cast; norm_num,
      rhe_nat_div _ _ (by norm_num)]
    decide
  unfold p_str
  simp only []
  rw [fl_natCast 2 (by norm_num),
    show ((2 : ℕ) : ℚ) * 100 = ((200 : ℕ) : ℚ) from by push_cast; norm_num,
    fl_natCast 200 (by norm_num), fl_natCast 3 (by norm_num), hfl2003, hrp,
    fl_intCast 67 (by norm_num),
    show ((4691249611844267 : ℤ) : ℚ) / 2 ^ 46 - ((67 : ℤ) : ℚ) =
        ((-23456248059221 : ℤ) : ℚ) / 2 ^ 46 from by push_cast; norm_num,
    fl_natDiv_self (-23456248059221) 46 (by norm_num), hfl20, if_neg hcond, hn1]
  decide

/-- **C2 (counterexample)** — The claim's rendering rule read literally shows
one decimal "in case" the probability is within 0.05 of the nearest integer;
the code does the opposite (whole percent exactly when within 0.05).  At
`cnt = 2, total = 3` (the claim's own example list) the code renders
`66.7%` while the literal rule renders `67%`. -/
theorem percent_rendering_literal_rule_counterexample :
    p_str 2 3 = "66.7%" ∧ claim_p_str_literal 2 3 = "67%" := by
  constructor
  · exact p_str_eval_two_three
  · have hc := cond_iff_nat (100 * 2) 3 (by norm_num)
    have hr := round_nat_div_q (100 * 2) 3 (by norm_num)
    rw [hr] at hc
    simp only [claim_p_str_literal]
    rw [hr]
    rw [if_neg (fun hcc => by have h2 := hc.mp hcc; omega)]
    rfl

/-- **C2** — Amended claim: for every event-list with `t > 0` items
(`t ≤ 2 ^ 46`), items are grouped by structural identity (`("load", name)`
for load-references, the serialized inline subtree otherwise); the group
keys appear in first-seen order, each group's count is the item-key
multiplicity, `total = t`, and each group's probability is the IEEE-754
binary64 evaluation of `cnt * 100.0 / t`, rendered as the nearest whole
percent exactly when the double `p - round(p)` is smaller in magnitude
than the double literal `0.05`, and with one decimal digit (correctly
rounded, ties to even) otherwise — i.e. each group's rendered percentage
agrees with `spec_p_str`, the denotational one-rounding description of
that rule. -/
theorem event_list_grouping_counts_order_and_percent
    (items : List XElem) (h : items ≠ []) (hbound : items.length ≤ 2 ^ 46) :
    (group_items items).map (fun g => g.1) = dedup_first (items.map item_key) ∧
    (∀ g ∈ group_items items, g.2.2 = (items.map item_key).count g.1) ∧
    list_total items = items.length ∧
    (∀ g ∈ group_items items,
      p_str g.2.2 (list_total items) = spec_p_str g.2.2 (list_total items)) := by
  have hlen : 0 < items.length := List.length_pos.mpr h
  have htot : list_total items = items.length := by
    unfold list_total
    rw [if_pos hlen]
  have hkeys := (group_items_inv items).1
  have hcounts := (group_items_inv items).2
  refine ⟨hkeys, hcounts, htot, ?_⟩
  intro g hg
  have hmemk : g.1 ∈ items.map item_key := by
    have h1 : g.1 ∈ (group_items items).map (fun g => g.1) :=
      List.mem_map_of_mem _ hg
    rw [hkeys] at h1
    exact (mem_dedup_first _ _).mp h1
  have hcnt := hcounts g hg
  have hpos : 1 ≤ g.2.2 := by
    rw [hcnt]
    exact List.count_pos_iff.mpr hmemk
  have hle : g.2.2 ≤ items.length := by
    rw [hcnt]
    calc (items.map item_key).count g.1 ≤ (items.map item_key).length :=
          List.count_le_length _ _
      _ = items.length := List.length_map _ _
  rw [htot]
  exact p_str_eq_spec _ _ hpos hle hbound

/-- Items for the C2 witness: two load-references to `"C"` and one inline
subtree, the claim's own example list. -/
def c2_items : List XElem :=
  [XElem.mk "event" [("load", "C")] "" "" [],
   XElem.mk "event" [("load", "C")] "" "" [],
   XElem.mk "event" [] "inline" "" []]

/-- **C2 (witness)** — the grouping/rendering theorem applied at the
three-item example list. -/
theorem event_list_grouping_counts_order_and_percent_witness :
    c2_items ≠ [] ∧ c2_items.length ≤ 2 ^ 46 ∧
    ((group_items c2_items).map (fun g => g.1) = dedup_first (c2_items.map item_key) ∧
     (∀ g ∈ group_items c2_items, g.2.2 = (c2_items.map item_key).count g.1) ∧
     list_total c2_items = c2_items.length ∧
     (∀ g ∈ group_items c2_items,
       p_str g.2.2 (list_total c2_items) = spec_p_str g.2.2 (list_total c2_items))) :=
  ⟨by decide, by decide,
    event_list_grouping_counts_order_and_percent c2_items (by decide) (by decide)⟩

/-! ## C6 / C7: the registry builder (`registry.build_registry`)

The builder is modeled componentwise over a `corpus`: the list of XML files
under `data_dir` in directory-enumeration order, each paired with its parse
result (`none` models a file `_parse_xml_etree` fails on; such a file
contributes nothing to `events` / `event_ancestors` — its regex ship
fallback touches only `ship_defs`). -/

/-- `zh_markers` of `registry._xml_language_preference_key`. -/
def zh_markers : List String := ["zh", "简体", "chinese", "chs", "cn", "汉化"]

/-- `is_zh` of `_xml_language_preference_key`: some lowercased path part
contains some marker as a substring. -/
def is_zh_path (p : FPath) : Bool :=
  (p.parts.map pyLower).any (fun part => zh_markers.any (fun m => strHasSub part m))

/-- The sort key `(0 if not is_zh else 1, str(path).lower())`. -/
def xml_language_preference_key (p : FPath) : Nat × String :=
  (if is_zh_path p then 1 else 0, pyLower p.str)

/-- Total `≤` on strings (code-point order, as Python compares `str`). -/
def str_le (a b : String) : Bool := a == b || decide (a < b)

/-- Lexicographic `≤` on sort keys. -/
def key_le (a b : FPath) : Bool :=
  let ka := xml_language_preference_key a
  let kb := xml_language_preference_key b
  decide (ka.1 < kb.1) || (ka.1 == kb.1 && str_le ka.2 kb.2)

/-- One insertion step of a stable insertion sort by `key_le` (the model of
Python's stable `sorted(..., key=_xml_language_preference_key)`). -/
def insort (x : FPath × Option XElem) :
    List (FPath × Option XElem) → List (FPath × Option XElem)
  | [] => [x]
  | y :: l => if key_le x.1 y.1 then x :: y :: l else y :: insort x l

/-- `sorted(xml_files, key=_xml_language_preference_key)`. -/
def sortFiles (corpus : List (FPath × Option XElem)) :
    List (FPath × Option XElem) :=
  corpus.foldr insort []

mutual
/-- `_iter_named_events_etree`: all `(name, element)` for named `<event>`
elements of the subtree, in `root.iter()` (document) order. -/
def iterNamed : XElem → List (String × XElem)
  | .mk t a s tl cs =>
      (if strip_namespace t == "event" &&
          XElem.attrD (.mk t a s tl cs) "name" != "" then
        [(XElem.attrD (.mk t a s tl cs) "name", XElem.mk t a s tl cs)]
      else []) ++ iterNamedL cs

/-- `_iter_named_events_etree` over a child list. -/
def iterNamedL : List XElem → List (String × XElem)
  | [] => []
  | c :: cs => iterNamed c ++ iterNamedL cs
end

/-- Whether a corpus file defines event name `n` (parses, and some named
`<event>` in it is called `n`). -/
def defines (pr : FPath × Option XElem) (n : String) : Bool :=
  match pr.2 with
  | some root => ((iterNamed root).map Prod.fst).contains n
  | none => false

/-- `for name, el in _iter_named_events_etree(root): events[name] = (fp, el)`. -/
def file_events_step (m : List (String × FPath × XElem)) (fp : FPath)
    (root : XElem) : List (String × FPath × XElem) :=
  (iterNamed root).foldl (fun m p => aset m p.1 (fp, p.2)) m

/-- Processing one corpus file into `events` (parse failures contribute
nothing). -/
def reg_step (m : List (String × FPath × XElem)) (pr : FPath × Option XElem) :
    List (String × FPath × XElem) :=
  match pr.2 with
  | some root => file_events_step m pr.1 root
  | none => m

/-- The `events` table of `build_registry`: files processed in sorted order,
last writer wins. -/
def build_events (corpus : List (FPath × Option XElem)) :
    List (String × FPath × XElem) :=
  (sortFiles corpus).foldl reg_step []

mutual
/-- The nested `visit` of `build_registry`: records
`event_ancestors[nm] = list(ancestors)` before appending `nm` to the stack
passed to the children. -/
def visitAnc : XElem → List String → List (String × List String) →
    List (String × List String)
  | .mk t a s tl cs, ancestors, acc =>
      if strip_namespace t == "event" &&
          XElem.attrD (.mk t a s tl cs) "name" != "" then
        visitAncL cs (ancestors ++ [XElem.attrD (.mk t a s tl cs) "name"])
          (aset acc (XElem.attrD (.mk t a s tl cs) "name") ancestors)
      else visitAncL cs ancestors acc

/-- `visit` over a child list, left to right, threading the accumulator. -/
def visitAncL : List XElem → List String → List (String × List String) →
    List (String × List String)
  | [], _, acc => acc
  | c :: cs, anc, acc => visitAncL cs anc (visitAnc c anc acc)
end

/-- The `event_ancestors` table of `build_registry`: `visit(root, [])` for
each parsed file in sorted order, on a shared dictionary. -/
def build_ancestors (corpus : List (FPath × Option XElem)) :
    List (String × List String) :=
  (sortFiles corpus).foldl
    (fun m pr => match pr.2 with
      | some root => visitAnc root [] m
      | none => m) []

theorem find_map_set {α : Type} (l : List (String × α)) (k : String) (v : α)
    (h : (l.find? (fun p => p.1 == k)).isSome = true) :
    ((l.map (fun p => if p.1 == k then (k, v) else p)).find?
        (fun p => p.1 == k)) = some (k, v) := by
  induction l with
  | nil => simp [List.find?] at h
  | cons q l ih =>
      rw [List.map_cons]
      by_cases hq : (q.1 == k) = true
      · rw [if_pos hq]
        simp [List.find?]
      · have hqf : (q.1 == k) = false := by simpa using hq
        rw [if_neg hq]
        have h' : (l.find? (fun p => p.1 == k)).isSome = true := by
          simp only [List.find?, hqf] at h
          exact h
        simp only [List.find?, hqf]
        exact ih h'

theorem aget_aset_self {α : Type} (l : List (String × α)) (k : String) (v : α) :
    aget (aset l k v) k = some v := by
  unfold aget aset
  by_cases hf : (l.find? (fun p => p.1 == k)).isSome = true
  · rw [if_pos hf, find_map_set l k v hf]
    rfl
  · rw [if_neg (by simpa using hf)]
    have hnone : l.find? (fun p => p.1 == k) = none := by
      cases hh : l.find? (fun p => p.1 == k) with
      | none => rfl
      | some p => rw [hh] at hf; simp at hf
    rw [List.find?_append, hnone]
    simp [List.find?]

theorem find_map_set_ne {α : Type} (l : List (String × α)) (k k' : String)
    (v : α) (h : k' ≠ k) :
    ((l.map (fun p => if p.1 == k then (k, v) else p)).find?
        (fun p => p.1 == k')) = l.find? (fun p => p.1 == k') := by
  induction l with
  | nil => simp
  | cons q l ih =>
      rw [List.map_cons]
      by_cases hq : (q.1 == k) = true
      · have hqk : q.1 = k := by simpa using hq
        have h1 : ((k, v).1 == k') = false := by
          simpa using fun hc => h hc.symm
        have h2 : (q.1 == k') = false := by
          rw [hqk]
          simpa using fun hc => h hc.symm
        rw [if_pos hq]
        simp only [List.find?, h1, h2]
        exact ih
      · rw [if_neg hq]
        by_cases hq' : (q.1 == k') = true
        · simp only [List.find?, hq']
        · have hqf : (q.1 == k') = false := by simpa using hq'
          simp only [List.find?, hqf]
          exact ih

theorem aget_aset_ne {α : Type} (l : List (String × α)) (k k' : String) (v : α)
    (h : k' ≠ k) : aget (aset l k v) k' = aget l k' := by
  unfold aget aset
  by_cases hf : (l.find? (fun p => p.1 == k)).isSome = true
  · rw [if_pos hf, find_map_set_ne l k k' v h]
  · rw [if_neg (by simpa using hf)]
    rw [List.find?_append]
    have h1 : ([(k, v)].find? (fun p => p.1 == k')) = none := by
      have hf : (k == k') = false := by
        simpa using fun hc : k = k' => h hc.symm
      simp [List.find?, hf]
    rw [h1]
    cases hh : l.find? (fun p => p.1 == k') <;> simp

theorem mem_insort (x y : FPath × Option XElem) (l : List (FPath × Option XElem)) :
    y ∈ insort x l ↔ y ∈ x :: l := by
  induction l with
  | nil => simp [insort]
  | cons z l ih =>
      unfold insort
      by_cases hk : key_le x.1 z.1 = true
      · simp [hk]
      · simp only [Bool.not_eq_true] at hk
        simp only [hk, Bool.false_eq_true, if_false, List.mem_cons, ih]
        constructor
        · rintro (rfl | (rfl | hy)) <;> simp [*]
        · rintro (rfl | (rfl | hy)) <;> simp [*]

theorem mem_sortFiles (y : FPath × Option XElem) (corpus : List (FPath × Option XElem)) :
    y ∈ sortFiles corpus ↔ y ∈ corpus := by
  induction corpus with
  | nil => simp [sortFiles]
  | cons x l ih =>
      unfold sortFiles at ih ⊢
      rw [List.foldr_cons, mem_insort, List.mem_cons, List.mem_cons, ih]

theorem key_le_nonzh_zh (x y : FPath) (hx : is_zh_path x = false)
    (hy : is_zh_path y = true) : key_le x y = true := by
  unfold key_le xml_language_preference_key
  rw [hx, hy]
  simp

theorem key_le_zh_nonzh_eq_false_imp (x y : FPath) (hx : is_zh_path x = true)
    (hk : key_le x y = true) : is_zh_path y = true := by
  unfold key_le xml_language_preference_key at hk
  rw [hx] at hk
  by_cases hy : is_zh_path y = true
  · exact hy
  · simp only [Bool.not_eq_true] at hy
    rw [hy] at hk
    simp at hk

/-- Inserting into a (non-zh files ++ zh files) split list preserves the split. -/
theorem insort_split (x : FPath × Option XElem) (A B : List (FPath × Option XElem))
    (hA : ∀ a ∈ A, is_zh_path a.1 = false) (hB : ∀ b ∈ B, is_zh_path b.1 = true) :
    ∃ A' B', insort x (A ++ B) = A' ++ B' ∧
      (∀ a ∈ A', is_zh_path a.1 = false) ∧ (∀ b ∈ B', is_zh_path b.1 = true) := by
  induction A with
  | nil =>
      simp only [List.nil_append]
      by_cases hx : is_zh_path x.1 = true
      · refine ⟨[], insort x B, by simp, by simp, ?_⟩
        intro b hb
        rcases List.mem_cons.mp ((mem_insort x b B).mp hb) with rfl | h2
        · exact hx
        · exact hB b h2
      · simp only [Bool.not_eq_true] at hx
        cases B with
        | nil => exact ⟨[x], [], by simp [insort], by simp [hx], by simp⟩
        | cons b B' =>
            have hk : key_le x.1 b.1 = true :=
              key_le_nonzh_zh _ _ hx (hB b (by simp))
            refine ⟨[x], b :: B', by simp [insort, hk], by simp [hx], hB⟩
  | cons a A' ih =>
      have ha := hA a (by simp)
      have hA' : ∀ p ∈ A', is_zh_path p.1 = false := fun p hp => hA p (by simp [hp])
      rcases ih hA' with ⟨A2, B2, heq, hA2, hB2⟩
      rw [List.cons_append]
      unfold insort
      by_cases hk : key_le x.1 a.1 = true
      · by_cases hx : is_zh_path x.1 = true
        · exact absurd (key_le_zh_nonzh_eq_false_imp _ _ hx hk) (by simp [ha])
        · simp only [Bool.not_eq_true] at hx
          refine ⟨x :: a :: A', B, by simp [hk], ?_, hB⟩
          intro p hp
          rcases List.mem_cons.mp hp with rfl | hp'
          · exact hx
          · exact hA p hp'
      · simp only [Bool.not_eq_true] at hk
        refine ⟨a :: A2, B2, ?_, ?_, hB2⟩
        · simp [hk, heq]
        · intro p hp
          rcases List.mem_cons.mp hp with rfl | hp'
          · exact ha
          · exact hA2 p hp'

/-- `sortFiles` output splits as non-zh files followed by zh files. -/
theorem sortFiles_split (corpus : List (FPath × Option XElem)) :
    ∃ A B, sortFiles corpus = A ++ B ∧
      (∀ a ∈ A, is_zh_path a.1 = false) ∧ (∀ b ∈ B, is_zh_path b.1 = true) := by
  induction corpus with
  | nil => exact ⟨[], [], by simp [sortFiles], by simp, by simp⟩
  | cons x l ih =>
      rcases ih with ⟨A, B, heq, hA, hB⟩
      unfold sortFiles at heq ⊢
      rw [List.foldr_cons, heq]
      exact insort_split x A B hA hB

theorem aget_foldl_aset_not_mem (l : List (String × XElem)) (fp : FPath)
    (n : String) (m : List (String × FPath × XElem))
    (h : ∀ p ∈ l, p.1 ≠ n) :
    aget (l.foldl (fun m p => aset m p.1 (fp, p.2)) m) n = aget m n := by
  induction l generalizing m with
  | nil => rfl
  | cons p l ih =>
      rw [List.foldl_cons, ih _ (fun q hq => h q (by simp [hq]))]
      exact aget_aset_ne m p.1 n (fp, p.2) (fun hc => h p (by simp) hc.symm)

theorem aget_foldl_aset_mem (l : List (String × XElem)) (fp : FPath)
    (n : String) (m : List (String × FPath × XElem))
    (h : n ∈ l.map Prod.fst) :
    ∃ el, aget (l.foldl (fun m p => aset m p.1 (fp, p.2)) m) n = some (fp, el) := by
  induction l generalizing m with
  | nil => simp at h
  | cons p l ih =>
      rw [List.foldl_cons]
      by_cases hl : n ∈ l.map Prod.fst
      · exact ih _ hl
      · have hp : p.1 = n := by
          rw [List.map_cons] at h
          rcases List.mem_cons.mp h with h1 | h2
          · exact h1.symm
          · exact absurd h2 hl
        refine ⟨p.2, ?_⟩
        rw [aget_foldl_aset_not_mem l fp n _ ?_]
        · rw [hp, aget_aset_self]
        · intro q hq hqn
          exact hl (by simpa [hqn] using List.mem_map_of_mem Prod.fst hq)

theorem aget_reg_step_not_defines (m : List (String × FPath × XElem))
    (pr : FPath × Option XElem) (n : String) (h : defines pr n = false) :
    aget (reg_step m pr) n = aget m n := by
  unfold reg_step
  cases hr : pr.2 with
  | none => rfl
  | some root =>
      unfold file_events_step
      apply aget_foldl_aset_not_mem
      intro p hp hpn
      unfold defines at h
      rw [hr] at h
      have hnm : n ∉ (iterNamed root).map Prod.fst := by simpa using h
      exact hnm (hpn ▸ List.mem_map_of_mem Prod.fst hp)

theorem aget_reg_step_defines (m : List (String × FPath × XElem))
    (pr : FPath × Option XElem) (n : String) (h : defines pr n = true) :
    ∃ el, aget (reg_step m pr) n = some (pr.1, el) := by
  unfold reg_step
  cases hr : pr.2 with
  | none =>
      unfold defines at h
      rw [hr] at h
      simp at h
  | some root =>
      unfold file_events_step
      apply aget_foldl_aset_mem
      unfold defines at h
      rw [hr] at h
      simpa [List.elem_iff] using h

theorem fold_defines_mem (L : List (FPath × Option XElem)) (n : String)
    (m : List (String × FPath × XElem)) (h : ∃ pr ∈ L, defines pr n = true) :
    ∃ pr, pr ∈ L ∧ defines pr n = true ∧
      ∃ el, aget (L.foldl reg_step m) n = some (pr.1, el) := by
  induction L using List.reverseRecOn generalizing m with
  | nil => simp at h
  | append_singleton L pr ih =>
      rw [List.foldl_append, List.foldl_cons, List.foldl_nil]
      by_cases hd : defines pr n = true
      · rcases aget_reg_step_defines (L.foldl reg_step m) pr n hd with ⟨el, hel⟩
        exact ⟨pr, by simp, hd, el, hel⟩
      · have h' : ∃ q ∈ L, defines q n = true := by
          rcases h with ⟨q, hq, hqd⟩
          rcases List.mem_append.mp hq with h1 | h2
          · exact ⟨q, h1, hqd⟩
          · have : q = pr := by simpa using h2
            exact absurd (this ▸ hqd) hd
        rcases ih m h' with ⟨q, hq, hqd, el, hel⟩
        refine ⟨q, by simp [hq], hqd, el, ?_⟩
        rw [aget_reg_step_not_defines _ pr n (by simpa using hd)]
        exact hel

/-- **C6** — For every corpus, the registry builder's sorted processing
order places all localization-marked (zh) paths after all other paths; and
if any zh file that parses defines event name `n`, then last-writer-wins
recording leaves `events[n]` pointing at a zh file, i.e. the localized
version of the event overrides any base-language version of the same name. -/
theorem build_registry_localized_event_overrides
    (corpus : List (FPath × Option XElem)) (n : String)
    (hzh : ∃ pr ∈ corpus, is_zh_path pr.1 = true ∧ defines pr n = true) :
    (∃ A B, sortFiles corpus = A ++ B ∧
      (∀ a ∈ A, is_zh_path a.1 = false) ∧ (∀ b ∈ B, is_zh_path b.1 = true)) ∧
    (∃ fp el, aget (build_events corpus) n = some (fp, el) ∧
      is_zh_path fp = true) := by
  rcases sortFiles_split corpus with ⟨A, B, heq, hA, hB⟩
  refine ⟨⟨A, B, heq, hA, hB⟩, ?_⟩
  rcases hzh with ⟨pr, hmem, hzh1, hdef⟩
  have hs : pr ∈ sortFiles corpus := (mem_sortFiles pr corpus).mpr hmem
  unfold build_events
  rw [heq] at hs ⊢
  have hprB : pr ∈ B := by
    rcases List.mem_append.mp hs with h1 | h2
    · exact absurd (hA pr h1) (by simp [hzh1])
    · exact h2
  rw [List.foldl_append]
  rcases fold_defines_mem B n (A.foldl reg_step []) ⟨pr, hprB, hdef⟩ with
    ⟨q, hqB, hqd, el, hel⟩
  exact ⟨q.1, el, hel, hB q hqB⟩

/-- Base-language file of the C6 witness corpus. -/
def c6_base_root : XElem :=
  XElem.mk "FTL" [] "" "" [XElem.mk "event" [("name", "X")] "base" "" []]

/-- Localized file of the C6 witness corpus. -/
def c6_zh_root : XElem :=
  XElem.mk "FTL" [] "" "" [XElem.mk "event" [("name", "X")] "zh" "" []]

/-- C6 witness corpus: the same event name in a base file and a zh file. -/
def c6_corpus : List (FPath × Option XElem) :=
  [(⟨["data", "events.xml"]⟩, some c6_base_root),
   (⟨["data", "zh", "events.xml"]⟩, some c6_zh_root)]

/-- **C6 (witness)** — the override theorem applied at the two-file corpus. -/
theorem build_registry_localized_event_overrides_witness :
    (∃ pr ∈ c6_corpus, is_zh_path pr.1 = true ∧ defines pr "X" = true) ∧
    ((∃ A B, sortFiles c6_corpus = A ++ B ∧
        (∀ a ∈ A, is_zh_path a.1 = false) ∧ (∀ b ∈ B, is_zh_path b.1 = true)) ∧
     (∃ fp el, aget (build_events c6_corpus) "X" = some (fp, el) ∧
        is_zh_path fp = true)) :=
  ⟨by decide, build_registry_localized_event_overrides c6_corpus "X" (by decide)⟩

mutual
/-- Specification-side description of the ancestor walk: the list of
`(name, ancestry-stack-before-push)` snapshots for every named `<event>`
node of the subtree, in document order ("recording eventAncestors[name] as
the stack's snapshot before pushing the current name"). -/
def occs : XElem → List String → List (String × List String)
  | .mk t a s tl cs, anc =>
      if strip_namespace t == "event" &&
          XElem.attrD (.mk t a s tl cs) "name" != "" then
        (XElem.attrD (.mk t a s tl cs) "name", anc) ::
          occsL cs (anc ++ [XElem.attrD (.mk t a s tl cs) "name"])
      else occsL cs anc

/-- Snapshots of a child list, in document order. -/
def occsL : List XElem → List String → List (String × List String)
  | [], _ => []
  | c :: cs, anc => occs c anc ++ occsL cs anc
end

/-- The last snapshot recorded for name `n`, if any. -/
def lastSnap (l : List (String × List String)) (n : String) :
    Option (List String) :=
  (l.reverse.find? (fun p => p.1 == n)).map (fun p => p.2)

theorem lastSnap_append (l1 l2 : List (String × List String)) (n : String) :
    lastSnap (l1 ++ l2) n = (lastSnap l2 n).or (lastSnap l1 n) := by
  unfold lastSnap
  rw [List.reverse_append, List.find?_append]
  cases h2 : l2.reverse.find? (fun p => p.1 == n) <;> simp

theorem lastSnap_cons (nm : String) (snap : List String)
    (l : List (String × List String)) (n : String) :
    lastSnap ((nm, snap) :: l) n =
      (lastSnap l n).or (if nm == n then some snap else none) := by
  rw [show (nm, snap) :: l = [(nm, snap)] ++ l from rfl, lastSnap_append]
  congr 1
  cases h : (nm == n) <;> simp [lastSnap, List.find?, h]

theorem aget_aset_cases {α : Type} (l : List (String × α)) (k n : String)
    (v : α) :
    aget (aset l k v) n = if k == n then some v else aget l n := by
  by_cases h : k = n
  · subst h
    simp [aget_aset_self]
  · rw [if_neg (by simpa using h), aget_aset_ne l k n v (fun hc => h hc.symm)]

theorem visitAncL_aget_of (cs : List XElem)
    (hP : ∀ c ∈ cs, ∀ anc acc n, aget (visitAnc c anc acc) n =
        (lastSnap (occs c anc) n).or (aget acc n)) :
    ∀ anc acc n, aget (visitAncL cs anc acc) n =
      (lastSnap (occsL cs anc) n).or (aget acc n) := by
  induction cs with
  | nil =>
      intro anc acc n
      simp [visitAncL, occsL, lastSnap]
  | cons c cs ih =>
      intro anc acc n
      simp only [visitAncL, occsL]
      rw [ih (fun c hc => hP c (by simp [hc])) anc (visitAnc c anc acc) n,
        hP c (by simp) anc acc n, lastSnap_append, Option.or_assoc]

theorem visitAnc_aget (e : XElem) : ∀ anc acc n,
    aget (visitAnc e anc acc) n = (lastSnap (occs e anc) n).or (aget acc n) := by
  refine XElem.inductionOn
    (fun e => ∀ anc acc n,
      aget (visitAnc e anc acc) n = (lastSnap (occs e anc) n).or (aget acc n))
    ?_ e
  intro t a s tl cs hmem anc acc n
  simp only [visitAnc, occs]
  by_cases hcond : (strip_namespace t == "event" &&
      XElem.attrD (.mk t a s tl cs) "name" != "") = true
  · rw [if_pos hcond, if_pos hcond,
      visitAncL_aget_of cs hmem _ _ n, aget_aset_cases, lastSnap_cons,
      Option.or_assoc]
    cases h : (XElem.attrD (.mk t a s tl cs) "name" == n) <;> simp [h]
  · rw [if_neg hcond, if_neg hcond, visitAncL_aget_of cs hmem _ _ n]

/-- The snapshots contributed by one corpus file. -/
def file_occs (pr : FPath × Option XElem) : List (String × List String) :=
  match pr.2 with
  | some root => occs root []
  | none => []

/-- All ancestry snapshots of the corpus, in processing order. -/
def all_occs (corpus : List (FPath × Option XElem)) :
    List (String × List String) :=
  (sortFiles corpus).flatMap file_occs

/-- **C7 (counterexample)** — a named event lexically nested inside an event
of the same name: the walk records the outer snapshot `[]` first, then the
inner occurrence overwrites it with `["A"]`, so `event_ancestors["A"]`
contains the event's own name, contradicting the claim's "never contains
the event's own name". -/
theorem event_ancestors_contains_own_name :
    aget (build_ancestors
      [(⟨["data", "events.xml"]⟩,
        some (XElem.mk "event" [("name", "A")] "" ""
          [XElem.mk "event" [("name", "A")] "" "" []]))]) "A" = some ["A"] ∧
    "A" ∈ ["A"] :=
  ⟨by decide, by decide⟩

/-- **C7** — Amended claim: for every corpus and every name `n`,
`event_ancestors[n]` is exactly the ancestry-stack snapshot taken *before
pushing* `n` at the **last** named `<event>` occurrence called `n` in
processing order (document order within each file, files in sorted order),
where the stack lists the lexically enclosing named events outermost-first
and is never influenced by load-references (`occs` walks child lists only).
It need not exclude `n` itself: an event nested in a same-named event
records a snapshot containing its own name. -/
theorem build_ancestors_eq_last_snapshot
    (corpus : List (FPath × Option XElem)) (n : String) :
    aget (build_ancestors corpus) n = lastSnap (all_occs corpus) n := by
  unfold build_ancestors all_occs
  have key : ∀ (L : List (FPath × Option XElem)) (m : List (String × List String)),
      aget (L.foldl (fun m pr => match pr.2 with
        | some root => visitAnc root [] m
        | none => m) m) n =
      (lastSnap (L.flatMap file_occs) n).or (aget m n) := by
    intro L
    induction L with
    | nil =>
        intro m
        simp [lastSnap]
    | cons pr L ih =>
        intro m
        rw [List.foldl_cons, ih, List.flatMap_cons, lastSnap_append,
          Option.or_assoc]
        congr 1
        unfold file_occs
        cases hr : pr.2 with
        | none => simp [lastSnap]
        | some root => rw [visitAnc_aget]
  rw [key]
  simp [aget]

/-! ## C5 / C8 / C9: `cli.search_once` -/

/-- The result dictionary of `search_once`.  A `ValueError` raised on an
invalid mode is modeled as `invalidMode`. -/
inductive SearchResult where
  | expand (name text : String)
  | names (labels : List String) (matchCount : Nat) (note : Option String)
  | notFound
  | emptyQuery
  | invalidMode
deriving DecidableEq

/-- The ambient state `search_once` consults: the data dir, the cached
registry, entry and node indexes it ensures, and the filesystem
(`_parse_xml_etree` as a partial map from paths to parsed roots). -/
structure SearchEnv where
  data_dir : FPath
  reg : Registry
  entries : List EventEntry
  nodes : List EventNodeEntry
  parse : FPath → Option XElem

/-- The outcome-filter keys of the three `only_outcomes` blocks reached from
`search_once`. -/
def oo_keys : List String := ["战斗", "投降", "摧毁", "船员全灭", "逃跑", "敌舰逃走"]

/-- `any(k in ln for k in keys)`. -/
def line_has_key (ln : String) : Bool := oo_keys.any (fun k => strHasSub ln k)

/-- The `only_outcomes` post-filter: keep from the first outcome line on,
otherwise keep just the outcome lines, falling back to the original lines
when nothing remains. -/
def oo_filter (lines : List String) : List String :=
  let res := match lines.findIdx? line_has_key with
    | some i => lines.drop i
    | none => lines.filter line_has_key
  if res.isEmpty then lines else res

/-- Apply the `only_outcomes` filter when requested. -/
def apply_oo (oo : Bool) (lines : List String) : List String :=
  if oo then oo_filter lines else lines

/-- `_summarize_event(el, reg, depth=0, max_depth=maxD, visited=set(),
out_lines=[], expanded=set())`, returning the collected lines. -/
def run_summarize (reg : Registry) (maxD : Nat) (e : XElem) : List String :=
  (summarize_event reg maxD e 0 [] ⟨[], []⟩).lines

/-- `buf.getvalue().strip()` for a buffer holding one `print` per line. -/
def buf_strip (lines : List String) : String := pyStrip (pyJoin "\n" lines)

/-- The richest same-named `<event>` element of a parsed file: the first one
with strictly the most children (`ch_cnt > best_children`, starting at -1). -/
def richest_named (root : XElem) (nm : String) : Option XElem :=
  ((iterNamed root).filter (fun p => p.1 == nm)).foldl (fun best p =>
    match best with
    | none => some p.2
    | some b => if p.2.kids.length > b.kids.length then some p.2 else best) none

/-- The nested `_expand_entry` of `search_once`: fixed two-line header, then
the summarized richest same-named element (clipped to 100 chars), empty body
if the file fails to parse or holds no such event. -/
def expand_entry (reg : Registry) (maxD : Nat) (oo : Bool)
    (parse : FPath → Option XElem) (entry : EventEntry) : SearchResult :=
  let header := ["匹配事件: " ++ entry.name ++ " (" ++ entry.file.str ++ ")",
    "定位文本: 未能在事件内部精确定位（可能匹配来自子事件/列表）"]
  let body := match parse entry.file with
    | none => []
    | some root =>
        match richest_named root entry.name with
        | none => []
        | some el =>
            (apply_oo oo (run_summarize reg maxD el)).map
              (fun ln => clip_line ln 100)
  .expand entry.name (buf_strip (header ++ body))

mutual
/-- `summarize._first_matching_node`: the first node of the subtree, in
document order, whose visible text contains the query (a `<text>` node
matches on its joined `itertext`, any other node on its own `text`). -/
def firstMatch : XElem → String → Option (XElem × String)
  | .mk t a s tl cs, q =>
      if strip_namespace t == "text" then
        let s' := XElem.itertextJoined (.mk t a s tl cs)
        if strHasSub s' q then some (.mk t a s tl cs, s')
        else firstMatchL cs q
      else if s != "" && strHasSub s q then some (.mk t a s tl cs, s)
      else firstMatchL cs q

/-- `_first_matching_node` over a child list. -/
def firstMatchL : List XElem → String → Option (XElem × String)
  | [], _ => none
  | c :: cs, q =>
      match firstMatch c q with
      | some r => some r
      | none => firstMatchL cs q
end

mutual
/-- `summarize._find_ancestor_path`: the ancestors of the first subtree node
equal to `target`, outermost-first (`none` when `target` does not occur);
Python's object identity (`node is target`) is modeled as structural
equality, faithful here because the target was produced from the same tree. -/
def findAnc : XElem → XElem → Option (List XElem)
  | .mk t a s tl cs, target =>
      if XElem.mk t a s tl cs == target then some []
      else match findAncL cs target with
        | some p => some (XElem.mk t a s tl cs :: p)
        | none => none

/-- `_find_ancestor_path` over a child list. -/
def findAncL : List XElem → XElem → Option (List XElem)
  | [], _ => none
  | c :: cs, target =>
      match findAnc c target with
      | some p => some p
      | none => findAncL cs target
end

/-- First character index of substring `q` in `l` (`s.find(q)` at call sites
where the substring is known to occur; absent substrings yield `none`). -/
def subIdx : List Char → List Char → Option Nat
  | l, q =>
      if q.isPrefixOf l then some 0
      else match l with
        | [] => none
        | _ :: cs => (subIdx cs q).map (· + 1)

/-- `s.find(q)` (0 fallback; call sites guarantee the substring occurs). -/
def strFind (s q : String) : Nat := (subIdx s.data q.data).getD 0

/-- `summarize.show_single_event_detail` as the list of printed lines, for a
plain event entry (`registry.EventEntry` has no `kind` attribute, so the
`eventList` branch of the function is never taken from `search_once`).
`max_line_len` is the default 80 used by `search_once`. -/
def show_single_event_detail (reg : Registry) (maxD : Nat) (oo : Bool)
    (parse : FPath → Option XElem) (entry : EventEntry) (q : String) :
    List String :=
  match parse entry.file with
  | none => ["[警告] 无法解析该事件文件，跳过详细展开。"]
  | some root =>
      match richest_named root entry.name with
      | none => ["[警告] 在文件中未找到目标事件。"]
      | some target =>
          let header := "匹配事件: " ++ entry.name ++ " (" ++ entry.file.str ++ ")"
          match firstMatch target q with
          | none =>
              [header, "定位文本: 未能在事件内部精确定位（可能匹配来自子事件/列表）。"]
                ++ (apply_oo oo (run_summarize reg maxD target)).map
                  (fun ln => clip_line ln 80)
          | some (mnode, s) =>
              let i := strFind s q
              let a := i - 20
              let pre : String := ⟨(s.data.drop a).take (i - a)⟩
              let post : String := ⟨(s.data.drop (i + pyLen q)).take 20⟩
              let path := (findAnc target mnode).getD []
              let lines := match path.reverse.find? (fun anc => anc.ltag == "choice") with
                | some ch => run_summarize reg maxD (XElem.mk "event" [] "" "" [ch])
                | none => run_summarize reg maxD target
              [header, "定位文本: …" ++ pre ++ "[" ++ q ++ "]" ++ post ++ "…"]
                ++ (apply_oo oo lines).map (fun ln => clip_line ln 80)

/-- The note attached to a small `names` result. -/
def few_matches_note : String := "匹配到少量事件，事件ID分别如下:"

/-- The text-search phase of `search_once` (everything after the id phase):
node search, minimal-match pruning, the label/single/fallback cascade. -/
def text_phase (env : SearchEnv) (maxD : Nat) (oo : Bool) (q : String) :
    SearchResult :=
  let uid_lookup := build_uid_lookup env.nodes
  let hits := minimal_event_nodes (search_nodes env.nodes q)
  let tot := hits.length
  let labels := format_node_match_labels hits uid_lookup env.data_dir
  if tot > 1 ∧ labels ≠ [] then
    .names labels tot (if 1 < tot ∧ tot ≤ 5 then some few_matches_note else none)
  else
    match hits with
    | [n] =>
        let lines := apply_oo oo (run_summarize env.reg maxD n.el)
        let header := if optTruthy n.name then
            "匹配事件: " ++ n.name.getD "" ++ " (" ++ n.file.str ++ ")"
          else "匹配匿名事件 (" ++ n.file.str ++ ")"
        .expand (if optTruthy n.name then n.name.getD "" else "(anonymous)")
          (buf_strip (header :: lines.map (fun ln => clip_line ln 100)))
    | _ =>
        let names0 := (hits.filter (fun n => optTruthy n.name)).map (fun n => n.name.getD "")
        let names := if names0.isEmpty then
            minimal_events (search_entries env.entries q) env.reg
          else names0
        if names.isEmpty then .notFound
        else
          match names with
          | [nm] =>
              match env.entries.find? (fun e => e.name == nm) with
              | some entry =>
                  .expand entry.name
                    (buf_strip (show_single_event_detail env.reg maxD oo env.parse entry q))
              | none => .notFound
          | _ =>
              .names names names.length
                (if 1 < names.length ∧ names.length ≤ 5 then some few_matches_note
                 else none)

/-- `cli.search_once`.  The second component is the index-access trace: which
of the cached indexes (`registry` / `entries` / `nodes`) the call ensures, in
order — the empty-query return happens before any of them.  The unreachable
missing-entry case of the `len(names) == 1` fallback (where Python's bare
`next(...)` would raise `StopIteration`) is modeled as `notFound`. -/
def search_once (env : SearchEnv) (query mode : String) (maxD : Nat)
    (oo : Bool) : SearchResult × List String :=
  let q := pyStrip query
  if q = "" then (.emptyQuery, [])
  else
    let mode_n := pyLower (pyStrip (if mode = "" then "auto" else mode))
    if ¬(mode_n = "auto" ∨ mode_n = "text" ∨ mode_n = "id") then
      (.invalidMode, [])
    else
      let acc1 := ["registry", "entries"]
      if mode_n ≠ "text" then
        let ql := pyLower q
        match env.entries.find? (fun e => e.name == q || pyLower e.name == ql) with
        | some e => (expand_entry env.reg maxD oo env.parse e, acc1)
        | none =>
            if mode_n = "id" then (.notFound, acc1)
            else (text_phase env maxD oo q, acc1 ++ ["nodes"])
      else (text_phase env maxD oo q, acc1 ++ ["nodes"])

/-- **C9** — An empty or whitespace-only query makes `search_once` return
the `emptyQuery` result with an empty index-access trace: the registry,
entry index and node index are neither built nor consulted. -/
theorem search_once_empty_query (env : SearchEnv) (query mode : String)
    (maxD : Nat) (oo : Bool) (h : pyStrip query = "") :
    search_once env query mode maxD oo = (.emptyQuery, []) := by
  unfold search_once
  simp [h]

/-- Minimal environment for the C9 witness. -/
def c9_env : SearchEnv :=
  ⟨⟨["data"]⟩, ⟨⟨["data"]⟩, [], [], [], [], []⟩, [], [], fun _ => none⟩

/-- **C9 (witness)** — the empty-query theorem applied to a whitespace-only
query. -/
theorem search_once_empty_query_witness :
    pyStrip " \t  " = "" ∧
    search_once c9_env " \t  " "auto" 16 false = (.emptyQuery, []) :=
  ⟨by decide, search_once_empty_query c9_env " \t  " "auto" 16 false (by decide)⟩

theorem char_toNat_ofNatAux (n : Nat) (h1 : Nat.isValidChar n) :
    (Char.ofNatAux n h1).toNat = n := by
  simp [Char.ofNatAux, Char.toNat, UInt32.toNat, BitVec.toNat_ofNatLt]

theorem pyLowerChar_toNat_of_upper (c : Char) (h : 'A' ≤ c ∧ c ≤ 'Z') :
    (pyLowerChar c).toNat = c.toNat + 32 := by
  have h65 : ('A').toNat ≤ c.toNat := h.1
  have h90 : c.toNat ≤ ('Z').toNat := h.2
  have hA : ('A').toNat = 65 := by decide
  have hZ : ('Z').toNat = 90 := by decide
  unfold pyLowerChar
  rw [if_pos h]
  unfold Char.ofNat
  rw [dif_pos (Or.inl (by omega : c.toNat + 32 < 55296))]
  exact char_toNat_ofNatAux _ _

theorem pyLowerChar_id_of_not_upper (c : Char) (h : ¬('A' ≤ c ∧ c ≤ 'Z')) :
    pyLowerChar c = c := by
  unfold pyLowerChar
  rw [if_neg h]

theorem pyLowerChar_idem (c : Char) :
    pyLowerChar (pyLowerChar c) = pyLowerChar c := by
  by_cases h : 'A' ≤ c ∧ c ≤ 'Z'
  · have ht := pyLowerChar_toNat_of_upper c h
    have h65 : ('A').toNat ≤ c.toNat := h.1
    have hA : ('A').toNat = 65 := by decide
    have hZ : ('Z').toNat = 90 := by decide
    apply pyLowerChar_id_of_not_upper
    rintro ⟨_, h2⟩
    have h2' : (pyLowerChar c).toNat ≤ ('Z').toNat := h2
    omega
  · rw [pyLowerChar_id_of_not_upper c h, pyLowerChar_id_of_not_upper c h]

theorem pyLower_idem (s : String) : pyLower (pyLower s) = pyLower s := by
  unfold pyLower
  congr 1
  rw [List.map_map]
  exact List.map_congr_left (fun a _ => pyLowerChar_idem a)

theorem pyIsSpace_eq_false_of_ge (c : Char) (h : 65 ≤ c.toNat) :
    pyIsSpace c = false := by
  have hs : ∀ d : Char, d.toNat < 65 → ¬ c = d := by
    intro d hd hc
    subst hc
    omega
  unfold pyIsSpace
  simp [hs ' ' (by decide), hs '\t' (by decide), hs '\n' (by decide),
    hs '\r' (by decide), hs '\x0b' (by decide), hs '\x0c' (by decide)]

theorem pyIsSpace_pyLowerChar (c : Char) :
    pyIsSpace (pyLowerChar c) = pyIsSpace c := by
  by_cases h : 'A' ≤ c ∧ c ≤ 'Z'
  · have ht := pyLowerChar_toNat_of_upper c h
    have h65 : ('A').toNat ≤ c.toNat := h.1
    have hA : ('A').toNat = 65 := by decide
    rw [pyIsSpace_eq_false_of_ge c (by omega),
      pyIsSpace_eq_false_of_ge _ (by omega)]
  · rw [pyLowerChar_id_of_not_upper c h]

theorem dropWhile_space_map_lower (l : List Char) :
    List.dropWhile pyIsSpace (l.map pyLowerChar) =
      (List.dropWhile pyIsSpace l).map pyLowerChar := by
  have hp : (pyIsSpace ∘ pyLowerChar) = pyIsSpace :=
    funext (fun c => pyIsSpace_pyLowerChar c)
  rw [List.dropWhile_map, hp]

theorem pyStrip_pyLower (s : String) :
    pyStrip (pyLower s) = pyLower (pyStrip s) := by
  unfold pyStrip pyLower
  congr 1
  rw [dropWhile_space_map_lower, ← List.map_reverse,
    dropWhile_space_map_lower, ← List.map_reverse]

theorem pyLower_eq_empty_iff (s : String) : pyLower s = "" ↔ s = "" := by
  unfold pyLower
  cases s with
  | mk l =>
      cases l with
      | nil => simp
      | cons c l =>
          constructor
          · intro h
            have : ((⟨pyLowerChar c :: l.map pyLowerChar⟩ : String)).data = ("" : String).data := by
              rw [← h]
              rfl
            simp at this
          · intro h
            exact absurd (congrArg String.data h) (by simp)

theorem find?_congr {α : Type} (l : List α) (p1 p2 : α → Bool)
    (h : ∀ a, p1 a = p2 a) : l.find? p1 = l.find? p2 := by
  induction l with
  | nil => rfl
  | cons a l ih =>
      cases hpa : p2 a
      · have hp1 : p1 a = false := by rw [h a, hpa]
        simp [List.find?_cons, hpa, hp1, ih]
      · have hp1 : p1 a = true := by rw [h a, hpa]
        simp [List.find?_cons, hpa, hp1]

theorem id_lookup_pred_eq (e q' : String) :
    ((e == q') || (pyLower e == pyLower q')) =
      ((e == pyLower q') || (pyLower e == pyLower (pyLower q'))) := by
  rw [pyLower_idem]
  by_cases h : pyLower e = pyLower q'
  · simp [h]
  · have h2 : (pyLower e == pyLower q') = false := by simpa using h
    rw [h2, Bool.or_false, Bool.or_false]
    have he1 : (e == q') = false := by
      simpa using fun hc : e = q' => h (by rw [hc])
    have he2 : (e == pyLower q') = false := by
      simpa using fun hc : e = pyLower q' => h (by rw [hc, pyLower_idem])
    rw [he1, he2]

theorem search_once_of_strip_empty (env : SearchEnv) (query mode : String)
    (maxD : Nat) (oo : Bool) (h : pyStrip query = "") :
    search_once env query mode maxD oo = (.emptyQuery, []) := by
  unfold search_once
  simp [h]

theorem search_once_id_eq (env : SearchEnv) (q : String) (maxD : Nat)
    (oo : Bool) (hq : pyStrip q ≠ "") :
    search_once env q "id" maxD oo =
      ((match env.entries.find? (fun e =>
          e.name == pyStrip q || pyLower e.name == pyLower (pyStrip q)) with
        | some e => expand_entry env.reg maxD oo env.parse e
        | none => .notFound), ["registry", "entries"]) := by
  unfold search_once
  simp only []
  rw [if_neg hq,
    show pyLower (pyStrip (if ("id" : String) = "" then "auto" else "id")) = "id"
      from by decide,
    if_neg (by decide :
      ¬¬(("id" : String) = "auto" ∨ ("id" : String) = "text" ∨ ("id" : String) = "id")),
    if_pos (by decide : ("id" : String) ≠ "text")]
  cases hf : env.entries.find? (fun e =>
      e.name == pyStrip q || pyLower e.name == pyLower (pyStrip q)) with
  | some e => simp
  | none => simp

theorem search_once_auto_hit_eq (env : SearchEnv) (q : String) (maxD : Nat)
    (oo : Bool) (hq : pyStrip q ≠ "") (e : EventEntry)
    (hf : env.entries.find? (fun e =>
        e.name == pyStrip q || pyLower e.name == pyLower (pyStrip q)) = some e) :
    search_once env q "auto" maxD oo =
      (expand_entry env.reg maxD oo env.parse e, ["registry", "entries"]) := by
  unfold search_once
  simp only []
  rw [if_neg hq,
    show pyLower (pyStrip (if ("auto" : String) = "" then "auto" else "auto")) = "auto"
      from by decide,
    if_neg (by decide :
      ¬¬(("auto" : String) = "auto" ∨ ("auto" : String) = "text" ∨ ("auto" : String) = "id")),
    if_pos (by decide : ("auto" : String) ≠ "text"), hf]

/-- **C8** — Exact-id lookup is case-insensitive: in `id` mode a query and
its case-folded form always produce identical results, and in `auto` mode
they do whenever the id phase finds an entry (so an id hit expands
identically regardless of query case). -/
theorem search_once_id_lookup_case_insensitive (env : SearchEnv)
    (q : String) (maxD : Nat) (oo : Bool) :
    search_once env q "id" maxD oo = search_once env (pyLower q) "id" maxD oo ∧
    ((env.entries.find? (fun e =>
        e.name == pyStrip q || pyLower e.name == pyLower (pyStrip q))).isSome = true →
      search_once env q "auto" maxD oo =
        search_once env (pyLower q) "auto" maxD oo) := by
  have hcomm : pyStrip (pyLower q) = pyLower (pyStrip q) := pyStrip_pyLower q
  by_cases hq : pyStrip q = ""
  · have hql : pyStrip (pyLower q) = "" := by
      rw [hcomm, hq]
      rfl
    constructor
    · rw [search_once_of_strip_empty env q "id" maxD oo hq,
        search_once_of_strip_empty env (pyLower q) "id" maxD oo hql]
    · intro _
      rw [search_once_of_strip_empty env q "auto" maxD oo hq,
        search_once_of_strip_empty env (pyLower q) "auto" maxD oo hql]
  · have hql : pyStrip (pyLower q) ≠ "" := by
      rw [hcomm]
      exact fun hc => hq ((pyLower_eq_empty_iff _).mp hc)
    have hfind : env.entries.find? (fun e =>
        e.name == pyStrip (pyLower q) ||
          pyLower e.name == pyLower (pyStrip (pyLower q))) =
        env.entries.find? (fun e =>
          e.name == pyStrip q || pyLower e.name == pyLower (pyStrip q)) := by
      rw [hcomm]
      exact find?_congr _ _ _
        (fun e => (id_lookup_pred_eq e.name (pyStrip q)).symm)
    constructor
    · rw [search_once_id_eq env q maxD oo hq,
        search_once_id_eq env (pyLower q) maxD oo hql, hfind]
    · intro hhit
      rcases Option.isSome_iff_exists.mp hhit with ⟨e, hf⟩
      rw [search_once_auto_hit_eq env q maxD oo hq e hf,
        search_once_auto_hit_eq env (pyLower q) maxD oo hql e (hfind.trans hf)]

/-- Environment for the C8 witness: one entry named `FLAGSHIP`. -/
def c8_env : SearchEnv :=
  ⟨⟨["data"]⟩, ⟨⟨["data"]⟩, [], [], [], [], []⟩,
   [⟨"FLAGSHIP", ⟨["data", "events.xml"]⟩, "", ""⟩], [], fun _ => none⟩

/-- **C8 (witness)** — the auto-mode conjunct applied at a mixed-case query
hitting the `FLAGSHIP` entry. -/
theorem search_once_id_lookup_case_insensitive_witness :
    (c8_env.entries.find? (fun e =>
        e.name == pyStrip "Flagship" ||
          pyLower e.name == pyLower (pyStrip "Flagship"))).isSome = true ∧
    search_once c8_env "Flagship" "auto" 3 false =
      search_once c8_env (pyLower "Flagship") "auto" 3 false :=
  ⟨by decide,
   (search_once_id_lookup_case_insensitive c8_env "Flagship" 3 false).2 (by decide)⟩

theorem fnml_step_length (d : FPath) (u : String → Option EventNodeEntry)
    (acc : List (LabelKey × String × Nat)) (node : EventNodeEntry) :
    acc.length ≤ (fnml_step d u acc node).length := by
  unfold fnml_step
  by_cases h : ((acc.find? (fun g => g.1 ==
      (if optTruthy node.name then ((.named (node.name.getD "") : LabelKey), "")
       else match nearest_named_ancestor node u with
         | some pn => (.parentName pn, "")
         | none => (.orphan node.uid,
             relative_to_data (some node.file) d)).1)).isSome) = true
  · rw [if_pos h]
    simp
  · rw [if_neg h]
    simp

theorem foldl_fnml_length (d : FPath) (u : String → Option EventNodeEntry)
    (l : List EventNodeEntry) (acc : List (LabelKey × String × Nat)) :
    acc.length ≤ (l.foldl (fnml_step d u) acc).length := by
  induction l generalizing acc with
  | nil => simp
  | cons n l ih =>
      rw [List.foldl_cons]
      exact le_trans (fnml_step_length d u acc n) (ih _)

theorem labels_ne_nil (hits : List EventNodeEntry)
    (u : String → Option EventNodeEntry) (d : FPath) (h : hits ≠ []) :
    format_node_match_labels hits u d ≠ [] := by
  cases hits with
  | nil => exact absurd rfl h
  | cons n rest =>
      unfold format_node_match_labels
      intro hc
      have hlen : ((n :: rest).foldl (fnml_step d u) []).length = 0 := by
        have := congrArg List.length hc
        simpa using this
      rw [List.foldl_cons] at hlen
      have h1 : 1 ≤ (fnml_step d u [] n).length := by
        unfold fnml_step
        rw [if_neg (by simp [List.find?])]
        simp
      have := foldl_fnml_length d u rest (fnml_step d u [] n)
      omega

theorem search_once_text_eq (env : SearchEnv) (q : String) (maxD : Nat)
    (oo : Bool) (hq : pyStrip q ≠ "") :
    search_once env q "text" maxD oo =
      (text_phase env maxD oo (pyStrip q), ["registry", "entries", "nodes"]) := by
  unfold search_once
  simp only []
  rw [if_neg hq,
    show pyLower (pyStrip (if ("text" : String) = "" then "auto" else "text")) = "text"
      from by decide,
    if_neg (by decide :
      ¬¬(("text" : String) = "auto" ∨ ("text" : String) = "text" ∨ ("text" : String) = "id")),
    if_neg (by decide : ¬(("text" : String) ≠ "text"))]
  rfl

/-- **C5 (counterexample)** — a text search whose pruned match set has six
elements: `search_once` still returns the `names` list of all six labels
(with `note = none`), not a "too many matches, narrow your query" summary. -/
theorem search_once_six_matches_returns_labels :
    search_once
      ⟨⟨["data"]⟩, ⟨⟨["data"]⟩, [], [], [], [], []⟩, [],
        [⟨"u1", some "E1", ⟨["data", "a.xml"]⟩, XElem.mk "event" [] "" "" [], "x", "x", []⟩,
         ⟨"u2", some "E2", ⟨["data", "a.xml"]⟩, XElem.mk "event" [] "" "" [], "x", "x", []⟩,
         ⟨"u3", some "E3", ⟨["data", "a.xml"]⟩, XElem.mk "event" [] "" "" [], "x", "x", []⟩,
         ⟨"u4", some "E4", ⟨["data", "a.xml"]⟩, XElem.mk "event" [] "" "" [], "x", "x", []⟩,
         ⟨"u5", some "E5", ⟨["data", "a.xml"]⟩, XElem.mk "event" [] "" "" [], "x", "x", []⟩,
         ⟨"u6", some "E6", ⟨["data", "a.xml"]⟩, XElem.mk "event" [] "" "" [], "x", "x", []⟩],
        fun _ => none⟩
      "x" "text" 16 false =
      (.names ["E1", "E2", "E3", "E4", "E5", "E6"] 6 none,
       ["registry", "entries", "nodes"]) := by
  decide

/-- **C5** — Amended claim: for every text-mode search whose pruned
(minimal) match set has `n ≥ 2` elements, the result is the `names` list of
the formatted labels (anonymous nodes labeled by nearest named ancestor, or
file plus node identifier when none exists, repeats collapsed into counts);
the "匹配到少量事件…" note is attached exactly when `n ≤ 5`, and for `n > 5`
the same label list is returned with no note — not a "too many matches"
summary (that summary exists only in the interactive CLI loop, not in
`search_once`). -/
theorem search_once_text_labels (env : SearchEnv) (q : String) (maxD : Nat)
    (oo : Bool) (hq : pyStrip q ≠ "")
    (h2 : 2 ≤ (minimal_event_nodes (search_nodes env.nodes (pyStrip q))).length) :
    search_once env q "text" maxD oo =
      (.names
        (format_node_match_labels
          (minimal_event_nodes (search_nodes env.nodes (pyStrip q)))
          (build_uid_lookup env.nodes) env.data_dir)
        (minimal_event_nodes (search_nodes env.nodes (pyStrip q))).length
        (if (minimal_event_nodes (search_nodes env.nodes (pyStrip q))).length ≤ 5
         then some few_matches_note else none),
       ["registry", "entries", "nodes"]) := by
  rw [search_once_text_eq env q maxD oo hq]
  unfold text_phase
  simp only []
  rw [if_pos ⟨by omega, labels_ne_nil _ _ _ (by
    intro hc
    rw [hc] at h2
    simp at h2)⟩]
  by_cases h5 : (minimal_event_nodes (search_nodes env.nodes (pyStrip q))).length ≤ 5
  · rw [if_pos ⟨by omega, h5⟩, if_pos h5]
  · rw [if_neg (fun hc => h5 hc.2), if_neg h5]

/-- Environment for the C5 witness: three matching nodes for query `y`. -/
def c5w_env : SearchEnv :=
  ⟨⟨["data"]⟩, ⟨⟨["data"]⟩, [], [], [], [], []⟩, [],
   [⟨"u1", some "E1", ⟨["data", "a.xml"]⟩, XElem.mk "event" [] "" "" [], "y", "y", []⟩,
    ⟨"u2", some "E2", ⟨["data", "a.xml"]⟩, XElem.mk "event" [] "" "" [], "y", "y", []⟩,
    ⟨"u3", some "E3", ⟨["data", "a.xml"]⟩, XElem.mk "event" [] "" "" [], "y", "y", []⟩],
   fun _ => none⟩

/-- **C5 (witness)** — the label theorem applied at a three-hit search (the
note is present since `3 ≤ 5`). -/
theorem search_once_text_labels_witness :
    (pyStrip "y" ≠ "" ∧
      2 ≤ (minimal_event_nodes (search_nodes c5w_env.nodes (pyStrip "y"))).length) ∧
    search_once c5w_env "y" "text" 16 false =
      (.names
        (format_node_match_labels
          (minimal_event_nodes (search_nodes c5w_env.nodes (pyStrip "y")))
          (build_uid_lookup c5w_env.nodes) c5w_env.data_dir)
        (minimal_event_nodes (search_nodes c5w_env.nodes (pyStrip "y"))).length
        (if (minimal_event_nodes (search_nodes c5w_env.nodes (pyStrip "y"))).length ≤ 5
         then some few_matches_note else none),
       ["registry", "entries", "nodes"]) :=
  ⟨⟨by decide, by decide⟩,
   search_once_text_labels c5w_env "y" 16 false (by decide) (by decide)⟩
